import Mathlib

/-!
# SHA256_Calc : a shallow embedding of `sha256.cpp`

The C++ functions `pre_pad`, `pad_msg`, `parse_msg`, `sha256_algo` and `sha256`
are transcribed as Lean functions over `Nat`.

* `uint64_t` / `uint32_t` / `uint8_t` values are natural numbers, every
  operation that can wrap is reduced `% 2^64`, `% 2^32`, `% 2^8`.
* Heap buffers the driver allocates with `new[]` are lists of cells; a cell is
  `none` while its content is indeterminate.  A store or load outside the
  allocated range, or a load of an indeterminate cell, is undefined behaviour
  in C++ and makes the embedded function return `none`.
* Loops `for (; index < bound; index++)` are recursions on the number of
  iterations that are left, `bound - index`.  An increment `index++` that
  follows a successful store at `index`, or the test `index < bound`, cannot
  wrap and is written `index + 1`.
-/

namespace SHA256

/-! ## Machine arithmetic -/

/-- Number of values of a `uint64_t`. -/
def U64 : Nat := 2 ^ 64

/-- Number of values of a `uint32_t`. -/
def U32 : Nat := 2 ^ 32

/-- Subtraction of two `uint64_t` operands, wrapping modulo `2^64`. -/
def sub64 (a b : Nat) : Nat := (a % U64 + U64 - b % U64) % U64

/-- Addition of two `uint64_t` operands, wrapping modulo `2^64`. -/
def add64 (a b : Nat) : Nat := (a + b) % U64

/-- Addition of two `uint32_t` operands, wrapping modulo `2^32`. -/
def add32 (a b : Nat) : Nat := (a + b) % U32

/-- Value of `sizeof(x)` for a `uint32_t` operand `x`. -/
def sizeof_uint32 : Nat := 4

/-! ## Common operations (the macros of `sha256.cpp`, on `uint32_t` operands) -/

/-- Macro `ROTR( n, x )`: `(( x >> n ) | ( x << ( ( sizeof(x) * 8 ) - n )))`,
the left shift truncated to the 32 bits of the operand type. -/
def ROTR (n x : Nat) : Nat := (x >>> n) ||| ((x <<< (sizeof_uint32 * 8 - n)) % U32)

/-- Macro `SHR( n, x )`: `( x >> n )`. -/
def SHR (n x : Nat) : Nat := x >>> n

/-- Macro `CH( x, y, z )`: `(( x & y ) ^ ( ~x & z ))`, `~x` being the 32-bit complement. -/
def CH (x y z : Nat) : Nat := (x &&& y) ^^^ ((U32 - 1 - x) &&& z)

/-- Macro `MAJ( x, y, z )`: `(( x & y ) ^ ( x & z ) ^ ( y & z ))`. -/
def MAJ (x y z : Nat) : Nat := (x &&& y) ^^^ (x &&& z) ^^^ (y &&& z)

/-- Macro `SIGMAU0( x )`. -/
def SIGMAU0 (x : Nat) : Nat := ROTR 2 x ^^^ ROTR 13 x ^^^ ROTR 22 x

/-- Macro `SIGMAU1( x )`. -/
def SIGMAU1 (x : Nat) : Nat := ROTR 6 x ^^^ ROTR 11 x ^^^ ROTR 25 x

/-- Macro `SIGMAL0( x )`. -/
def SIGMAL0 (x : Nat) : Nat := ROTR 7 x ^^^ ROTR 18 x ^^^ SHR 3 x

/-- Macro `SIGMAL1( x )`. -/
def SIGMAL1 (x : Nat) : Nat := ROTR 17 x ^^^ ROTR 19 x ^^^ SHR 10 x

def MSGBLOCK_BITS : Nat := 512
def WORD_BITS : Nat := 32
def MSGDIGEST_BITS : Nat := 256
def MSGSCHED : Nat := 64
def HASHWORD : Nat := 8

/-- Table `const uint32_t K[64]`. -/
def K : List Nat :=
  [0x428A2F98, 0x71374491, 0xB5C0FBCF, 0xE9B5DBA5, 0x3956C25B, 0x59F111F1, 0x923F82A4, 0xAB1C5ED5,
   0xD807AA98, 0x12835B01, 0x243185BE, 0x550C7DC3, 0x72BE5D74, 0x80DEB1FE, 0x9BDC06A7, 0xC19BF174,
   0xE49B69C1, 0xEFBE4786, 0x0FC19DC6, 0x240CA1CC, 0x2DE92C6F, 0x4A7484AA, 0x5CB0A9DC, 0x76F988DA,
   0x983E5152, 0xA831C66D, 0xB00327C8, 0xBF597FC7, 0xC6E00BF3, 0xD5A79147, 0x06CA6351, 0x14292967,
   0x27B70A85, 0x2E1B2138, 0x4D2C6DFC, 0x53380D13, 0x650A7354, 0x766A0ABB, 0x81C2C92E, 0x92722C85,
   0xA2BFE8A1, 0xA81A664B, 0xC24B8B70, 0xC76C51A3, 0xD192E819, 0xD6990624, 0xF40E3585, 0x106AA070,
   0x19A4C116, 0x1E376C08, 0x2748774C, 0x34B0BCB5, 0x391C0CB3, 0x4ED8AA4A, 0x5B9CCA4F, 0x682E6FF3,
   0x748F82EE, 0x78A5636F, 0x84C87814, 0x8CC70208, 0x90BEFFFA, 0xA4506CEB, 0xBEF9A3F7, 0xC67178F2]

/-- Table `const uint32_t H0[8]`. -/
def H0 : List Nat :=
  [0x6A09E667, 0xBB67AE85, 0x3C6EF372, 0xA54FF53A, 0x510E527F, 0x9B05688C, 0x1F83D9AB, 0x5BE0CD19]

/-! ## Conversion `uint64_t → double` and `pow( 2, 64 )` -/

/-- Exact value of the IEEE-754 binary64 number nearest to the integer `x`
(round to nearest, ties to even): the value the comparison
`bitlen > pow( 2, 64 )` gives to its `uint64_t` left operand.  Every binary64
number of magnitude at least `2^53` is an integer, so the value is a `Nat`. -/
def u64ToDouble (x : Nat) : Nat :=
  if x < 2 ^ 53 then x
  else
    let e := Nat.log2 x - 52
    let q := x / 2 ^ e
    let r := x % 2 ^ e
    let half := 2 ^ (e - 1)
    if r > half ∨ (r = half ∧ q % 2 = 1) then (q + 1) * 2 ^ e else q * 2 ^ e

/-- Value of `pow( 2, 64 )`: `2^64` is a binary64 number, the result is exact. -/
def pow_2_64 : Nat := 2 ^ 64

/-! ## Pre-Process #0: `pre_pad` -/

/-- Result of `pre_pad`: the returned flag and the two reference parameters. -/
structure PrePad where
  isWithinSet : Bool
  newSize_byte : Nat
  zeroPadSize : Nat
  deriving DecidableEq, Repr

/-- Function `pre_pad( msgSize_byte, newSize_byte, zeroPadSize )`, all `uint64_t`. -/
def pre_pad (msgSize_byte : Nat) : PrePad :=
  let bitlen := (msgSize_byte * 8) % U64
  let zeroPadSize := sub64 448 (add64 (sub64 bitlen ((bitlen / MSGBLOCK_BITS * MSGBLOCK_BITS) % U64)) 1)
  let newSize_byte := add64 (add64 (add64 bitlen zeroPadSize) 1) 64 / 8
  let isWithinSet := if u64ToDouble bitlen > pow_2_64 then false else true
  { isWithinSet := isWithinSet, newSize_byte := newSize_byte, zeroPadSize := zeroPadSize }

/-! ## Heap buffers -/

/-- A byte buffer obtained from `new uint8_t[n]`: `none` marks an indeterminate cell. -/
abbrev Buf := List (Option Nat)

/-- Allocation `new uint8_t[n]`: `n` cells of indeterminate content. -/
def alloc (n : Nat) : Buf := List.replicate n none

/-- Store `buf[i] = v`; `none` when `i` is outside the buffer. -/
def store (buf : Buf) (i v : Nat) : Option Buf :=
  if i < buf.length then some (buf.set i (some v)) else none

/-- Load `buf[i]`; `none` when `i` is outside the buffer or the cell is indeterminate. -/
def load (buf : Buf) (i : Nat) : Option Nat :=
  match buf.get? i with
  | some (some v) => some v
  | _ => none

/-! ## Pre-Process #1: `pad_msg` -/

/-- First loop of `pad_msg`: `for( ; index < msgSize_byte; index++ ) padmsg[index] = msg[index];`
with `n` iterations left.  Returns the buffer and the final `index`. -/
def pad_copy (msg : List Nat) : Nat → Nat → Buf → Option (Buf × Nat)
  | 0, index, padmsg => some (padmsg, index)
  | n + 1, index, padmsg =>
    match msg.get? index with
    | none => none
    | some v =>
      match store padmsg index v with
      | none => none
      | some p => pad_copy msg n (index + 1) p

/-- Second loop of `pad_msg`: `for( ; index < bound; index++ ) padmsg[index] = 0x00;`
with `n` iterations left. -/
def pad_zero : Nat → Nat → Buf → Option (Buf × Nat)
  | 0, index, padmsg => some (padmsg, index)
  | n + 1, index, padmsg =>
    match store padmsg index 0x00 with
    | none => none
    | some p => pad_zero n (index + 1) p

/-- Third loop of `pad_msg`, counting `k` upwards with `n` iterations left:
`padmsg[index] = ( bitlen >> ( 7 - k ) * 8 ) & 0xFF; index++;`. -/
def pad_len (bitlen : Nat) : Nat → Nat → Nat → Buf → Option (Buf × Nat)
  | 0, _, index, padmsg => some (padmsg, index)
  | n + 1, k, index, padmsg =>
    match store padmsg index ((bitlen >>> ((7 - k) * 8)) &&& 0xFF) with
    | none => none
    | some p => pad_len bitlen n (k + 1) (index + 1) p

/-- Function `pad_msg( msg, msgSize_byte, newSize_byte, bzeros, padmsg )`.
Returns the padded buffer and the value of `index` after the last store. -/
def pad_msg (msg : List Nat) (msgSize_byte newSize_byte bzeros : Nat) (padmsg : Buf) :
    Option (Buf × Nat) :=
  let _ := newSize_byte -- the parameter is not used by the body
  let bitlen := (msgSize_byte * 8) % U64
  match pad_copy msg msgSize_byte 0 padmsg with
  | none => none
  | some (p1, index) =>
    match store p1 index 0x80 with
    | none => none
    | some p2 =>
      let bzeros := sub64 bzeros 7
      let index := index + 1
      let bound := add64 (add64 msgSize_byte 1) (bzeros / 8)
      match pad_zero (bound - index) index p2 with
      | none => none
      | some (p3, index) => pad_len bitlen 8 0 index p3

/-! ## Pre-Process #2: `parse_msg` -/

/-- Value stored in `parsedMsg[i][j]`: the four bytes at `64 * i + 4 * j`,
promoted, shifted and or-ed, the result converted to `uint32_t`. -/
def parse_word (padmsg : Buf) (i j : Nat) : Option Nat :=
  match load padmsg (MSGBLOCK_BITS / 8 * i + j * 4),
        load padmsg (MSGBLOCK_BITS / 8 * i + j * 4 + 1),
        load padmsg (MSGBLOCK_BITS / 8 * i + j * 4 + 2),
        load padmsg (MSGBLOCK_BITS / 8 * i + j * 4 + 3) with
  | some b0, some b1, some b2, some b3 =>
    some (((b0 <<< 24) ||| (b1 <<< 16) ||| (b2 <<< 8) ||| b3) % U32)
  | _, _, _, _ => none

/-- Inner loop of `parse_msg` over `j`, with `n` iterations left; `row` holds the
words `parsedMsg[i][0 .. j-1]` written so far. -/
def parse_row (padmsg : Buf) (i : Nat) : Nat → Nat → List Nat → Option (List Nat)
  | 0, _, row => some row
  | n + 1, j, row =>
    match parse_word padmsg i j with
    | none => none
    | some w => parse_row padmsg i n (j + 1) (row ++ [w])

/-- Outer loop of `parse_msg` over `i`, with `n` iterations left; `parsedMsg`
holds the rows `0 .. i-1` allocated and filled so far. -/
def parse_blocks (padmsg : Buf) : Nat → Nat → List (List Nat) → Option (List (List Nat))
  | 0, _, parsedMsg => some parsedMsg
  | n + 1, i, parsedMsg =>
    match parse_row padmsg i (MSGBLOCK_BITS / WORD_BITS) 0 [] with
    | none => none
    | some row => parse_blocks padmsg n (i + 1) (parsedMsg ++ [row])

/-- Function `parse_msg( padmsg, blksize, parsedMsg )`. -/
def parse_msg (padmsg : Buf) (blksize : Nat) : Option (List (List Nat)) :=
  parse_blocks padmsg blksize 0 []

/-! ## `sha256_algo` -/

/-- Message schedule loop `for( t = 0; t < MSGSCHED; t++ )` with `n` iterations
left; `Mi` is the row `M[i - 1]`. -/
def sched_loop (Mi : List Nat) : Nat → Nat → List Nat → Option (List Nat)
  | 0, _, W => some W
  | n + 1, t, W =>
    if t < 16 then
      match Mi.get? t with
      | none => none
      | some w => sched_loop Mi n (t + 1) (W.set t w)
    else
      sched_loop Mi n (t + 1)
        (W.set t (add32 (add32 (add32 (SIGMAL1 (W.getD (t - 2) 0)) (W.getD (t - 7) 0))
          (SIGMAL0 (W.getD (t - 15) 0))) (W.getD (t - 16) 0)))

/-- The working variables `a .. h`. -/
structure Vars where
  a : Nat
  b : Nat
  c : Nat
  d : Nat
  e : Nat
  f : Nat
  g : Nat
  h : Nat
  deriving DecidableEq, Repr

/-- Body of the round loop for one value of `t`. -/
def round_step (W : List Nat) (v : Vars) (t : Nat) : Vars :=
  let T1 := add32 (add32 (add32 (add32 v.h (SIGMAU1 v.e)) (CH v.e v.f v.g)) (K.getD t 0))
    (W.getD t 0)
  let T2 := add32 (SIGMAU0 v.a) (MAJ v.a v.b v.c)
  { h := v.g, g := v.f, f := v.e, e := add32 v.d T1, d := v.c, c := v.b, b := v.a,
    a := add32 T1 T2 }

/-- Round loop `for( t = 0; t < MSGSCHED; t++ )`. -/
def rounds (W : List Nat) (v : Vars) : Vars :=
  (List.range MSGSCHED).foldl (round_step W) v

/-- Working variables initialised from the row `H[i - 1]`. -/
def init_vars (Hp : List Nat) : Vars :=
  { a := Hp.getD 0 0, b := Hp.getD 1 0, c := Hp.getD 2 0, d := Hp.getD 3 0,
    e := Hp.getD 4 0, f := Hp.getD 5 0, g := Hp.getD 6 0, h := Hp.getD 7 0 }

/-- Row `H[i]` computed from the working variables and the row `H[i - 1]`. -/
def next_hash (v : Vars) (Hp : List Nat) : List Nat :=
  [add32 v.a (Hp.getD 0 0), add32 v.b (Hp.getD 1 0), add32 v.c (Hp.getD 2 0),
   add32 v.d (Hp.getD 3 0), add32 v.e (Hp.getD 4 0), add32 v.f (Hp.getD 5 0),
   add32 v.g (Hp.getD 6 0), add32 v.h (Hp.getD 7 0)]

/-- Block loop `for( i = 1; i <= N; i++ )` with `n` iterations left.  `W` is the
schedule array (it lives across iterations), `H` the array of hash rows. -/
def block_loop (M : List (List Nat)) :
    Nat → Nat → List Nat → List (List Nat) → Option (List (List Nat))
  | 0, _, _, H => some H
  | n + 1, i, W, H =>
    match M.get? (i - 1) with
    | none => none
    | some Mi =>
      match sched_loop Mi MSGSCHED 0 W with
      | none => none
      | some W1 =>
        let Hp := H.getD (i - 1) []
        block_loop M n (i + 1) W1 (H.set i (next_hash (rounds W1 (init_vars Hp)) Hp))

/-- Store `digest[i] = v` into the caller's array; `none` outside of it. -/
def store_digest (digest : List Nat) (i v : Nat) : Option (List Nat) :=
  if i < digest.length then some (digest.set i v) else none

/-- Loop `for( x = 0; x < MSGDIGEST_BITS / HASHWORD; x++ ) digest[x] = H[N][x / 4];`
with `n` iterations left; the `uint32_t` is converted to `uint8_t`. -/
def digest_pre (HN : List Nat) : Nat → Nat → List Nat → Option (List Nat)
  | 0, _, digest => some digest
  | n + 1, x, digest =>
    match store_digest digest x (HN.getD (x / 4) 0 % 2 ^ 8) with
    | none => none
    | some d => digest_pre HN n (x + 1) d

/-- Loop `for( x = 0; x < HASHWORD; x++ )` writing the four bytes of `H[N][x]`,
with `n` iterations left. -/
def digest_ser (HN : List Nat) : Nat → Nat → List Nat → Option (List Nat)
  | 0, _, digest => some digest
  | n + 1, x, digest =>
    match store_digest digest (x * 4 + 3) (HN.getD x 0 &&& 0xFF) with
    | none => none
    | some d3 =>
      match store_digest d3 (x * 4 + 2) ((HN.getD x 0 >>> 8) &&& 0xFF) with
      | none => none
      | some d2 =>
        match store_digest d2 (x * 4 + 1) ((HN.getD x 0 >>> 16) &&& 0xFF) with
        | none => none
        | some d1 =>
          match store_digest d1 (x * 4 + 0) ((HN.getD x 0 >>> 24) &&& 0xFF) with
          | none => none
          | some d0 => digest_ser HN n (x + 1) d0

/-- Array `H` after the instantiation loop: `N + 1` rows, row 0 a copy of `H0`.
The other rows are indeterminate until the block loop writes them (row `i` is
written in iteration `i`, and read in iteration `i + 1` or by the
serialisation); they are filled with zeros here. -/
def init_H (N : Nat) : List (List Nat) :=
  H0 :: List.replicate N (List.replicate HASHWORD 0)

/-- Final state `H[N]` of `sha256_algo( M, N, digest )`.  The schedule array `W`
is indeterminate at entry; each entry is written before it is read, it is
filled with zeros here. -/
def sha256_state (M : List (List Nat)) (N : Nat) : Option (List Nat) :=
  match block_loop M N 1 (List.replicate MSGSCHED 0) (init_H N) with
  | none => none
  | some H => some (H.getD N [])

/-- Function `sha256_algo( M, N, digest )`: the content of `digest` at return. -/
def sha256_algo (M : List (List Nat)) (N : Nat) (digest : List Nat) : Option (List Nat) :=
  match sha256_state M N with
  | none => none
  | some HN =>
    match digest_pre HN (MSGDIGEST_BITS / HASHWORD) 0 digest with
    | none => none
    | some d => digest_ser HN HASHWORD 0 d

/-! ## `sha256` -/

/-- Function `sha256( msg, msg_ByteSize, digest )`: the returned flag and the
content of `digest` at return, or `none` when the call has undefined behaviour. -/
def sha256 (msg : List Nat) (msg_ByteSize : Nat) (digest : List Nat) :
    Option (Bool × List Nat) :=
  let r := pre_pad msg_ByteSize
  if !r.isWithinSet then some (false, digest)
  else
    let newsize := r.newSize_byte
    let zeroPadSize := r.zeroPadSize
    match pad_msg msg msg_ByteSize newsize zeroPadSize (alloc newsize) with
    | none => none
    | some (padmsg, _) =>
      let blksize := newsize / (WORD_BITS / 8) / 16
      match parse_msg padmsg blksize with
      | none => none
      | some parsemsg =>
        match sha256_algo parsemsg blksize digest with
        | none => none
        | some d => some (true, d)

/-! ## Auxiliary definitions used by the statements -/

/-- A buffer of `pre.length + m` cells whose first cells hold the bytes `pre`
and whose last `m` cells are still indeterminate. -/
def filled (pre : List Nat) (m : Nat) : Buf := pre.map some ++ List.replicate m none

/-- The eight bytes the third loop of `pad_msg` stores for the values
`k, k+1, ..` of its counter (`n` of them). -/
def len_bytes (bitlen : Nat) : Nat → Nat → List Nat
  | 0, _ => []
  | n + 1, k => ((bitlen >>> ((7 - k) * 8)) &&& 0xFF) :: len_bytes bitlen n (k + 1)

/-- Number of iterations of the zero-fill loop of `pad_msg`. -/
def zero_iters (msgSize_byte bzeros : Nat) : Nat :=
  add64 (add64 msgSize_byte 1) (sub64 bzeros 7 / 8) - (msgSize_byte + 1)

/-- Big-endian 32-bit word at offset `o` of a byte list. -/
def be_word (bytes : List Nat) (o : Nat) : Nat :=
  ((bytes.getD o 0 <<< 24) ||| (bytes.getD (o + 1) 0 <<< 16) ||| (bytes.getD (o + 2) 0 <<< 8)
    ||| bytes.getD (o + 3) 0) % U32

/-- The blocks `i, i+1, ..` (`n` of them) of a byte list, sixteen words each. -/
def blocks_of (bytes : List Nat) (i n : Nat) : List (List Nat) :=
  (List.range' i n).map (fun i => (List.range' 0 16).map (fun j => be_word bytes (64 * i + j * 4)))

/-- The padded message `pad_msg` builds when `msg.length % 64 ≤ 55`. -/
def padded (msg : List Nat) : List Nat :=
  msg ++ [0x80] ++ List.replicate (55 - msg.length % 64) 0
    ++ len_bytes ((msg.length * 8) % U64) 8 0

/-- The 56-byte two-block test message of FIPS 180-4,
"abcdbcdecdefdefgefghfghighijhijkijkljklmklmnlmnomnopnopq". -/
def nist_two_block_msg : List Nat :=
  [0x61, 0x62, 0x63, 0x64, 0x62, 0x63, 0x64, 0x65, 0x63, 0x64, 0x65, 0x66, 0x64, 0x65, 0x66, 0x67,
   0x65, 0x66, 0x67, 0x68, 0x66, 0x67, 0x68, 0x69, 0x67, 0x68, 0x69, 0x6a, 0x68, 0x69, 0x6a, 0x6b,
   0x69, 0x6a, 0x6b, 0x6c, 0x6a, 0x6b, 0x6c, 0x6d, 0x6b, 0x6c, 0x6d, 0x6e, 0x6c, 0x6d, 0x6e, 0x6f,
   0x6d, 0x6e, 0x6f, 0x70, 0x6e, 0x6f, 0x70, 0x71]

/-- Bytes of a hash row, every word most significant byte first. -/
def digest_bytes (HN : List Nat) : List Nat :=
  (List.range 32).map (fun i => (HN.getD (i / 4) 0 >>> (8 * (3 - i % 4))) &&& 0xFF)

/-! ## Reference definitions

Definitions written from FIPS 180-4, as the specification words it, with which
the code is compared.  They use the tables `K` and `H0` of the code; that these
are the FIPS constants is the claim C20. -/

/-- Big-endian encoding of `n` on eight bytes, most significant byte first. -/
def be64_bytes (n : Nat) : List Nat :=
  [n / 2 ^ 56 % 256, n / 2 ^ 48 % 256, n / 2 ^ 40 % 256, n / 2 ^ 32 % 256,
   n / 2 ^ 24 % 256, n / 2 ^ 16 % 256, n / 2 ^ 8 % 256, n % 256]

/-- Right rotation of a 32-bit word by `n` positions: the low `n` bits move to
the top, the others move down. -/
def fips_rotr (n x : Nat) : Nat := x / 2 ^ n + (x % 2 ^ n) * 2 ^ (32 - n)

/-- Right shift of a word by `n` positions. -/
def fips_shr (n x : Nat) : Nat := x / 2 ^ n

/-- FIPS 180-4 function `Σ0`. -/
def fips_Sigma0 (x : Nat) : Nat := fips_rotr 2 x ^^^ fips_rotr 13 x ^^^ fips_rotr 22 x

/-- FIPS 180-4 function `Σ1`. -/
def fips_Sigma1 (x : Nat) : Nat := fips_rotr 6 x ^^^ fips_rotr 11 x ^^^ fips_rotr 25 x

/-- FIPS 180-4 function `σ0`. -/
def fips_sigma0 (x : Nat) : Nat := fips_rotr 7 x ^^^ fips_rotr 18 x ^^^ fips_shr 3 x

/-- FIPS 180-4 function `σ1`. -/
def fips_sigma1 (x : Nat) : Nat := fips_rotr 17 x ^^^ fips_rotr 19 x ^^^ fips_shr 10 x

/-- FIPS 180-4 function `Ch(x,y,z) = (x ∧ y) ⊕ (¬x ∧ z)` on 32-bit words. -/
def fips_Ch (x y z : Nat) : Nat := (x &&& y) ^^^ ((2 ^ 32 - 1 - x) &&& z)

/-- FIPS 180-4 function `Maj(x,y,z) = (x ∧ y) ⊕ (x ∧ z) ⊕ (y ∧ z)`. -/
def fips_Maj (x y z : Nat) : Nat := (x &&& y) ^^^ (x &&& z) ^^^ (y &&& z)

/-- Message schedule, one entry more: with `t` the number of entries so far,
`W[t] = M[t]` for `t < 16` and
`W[t] = σ1(W[t-2]) + W[t-7] + σ0(W[t-15]) + W[t-16]` modulo `2^32` otherwise. -/
def fips_schedule_step (blk W : List Nat) : List Nat :=
  W ++ [if W.length < 16 then blk.getD W.length 0
        else (fips_sigma1 (W.getD (W.length - 2) 0) + W.getD (W.length - 7) 0
          + fips_sigma0 (W.getD (W.length - 15) 0) + W.getD (W.length - 16) 0) % 2 ^ 32]

/-- The 64 words `W[0 .. 63]` of the message schedule of a block. -/
def fips_schedule (blk : List Nat) : List Nat :=
  Nat.iterate (fips_schedule_step blk) 64 []

/-- Round `t` of the compression function: `T1 = h + Σ1(e) + Ch(e,f,g) + K[t] + W[t]`,
`T2 = Σ0(a) + Maj(a,b,c)`, then the shift chain, all modulo `2^32`. -/
def fips_round (W : List Nat) (v : Vars) (t : Nat) : Vars :=
  let T1 := (v.h + fips_Sigma1 v.e + fips_Ch v.e v.f v.g + K.getD t 0 + W.getD t 0) % 2 ^ 32
  let T2 := (fips_Sigma0 v.a + fips_Maj v.a v.b v.c) % 2 ^ 32
  { a := (T1 + T2) % 2 ^ 32, b := v.a, c := v.b, d := v.c,
    e := (v.d + T1) % 2 ^ 32, f := v.e, g := v.f, h := v.g }

/-- Compression of one block into the hash state: schedule, 64 rounds seeded
with the state, then element-wise addition modulo `2^32`. -/
def fips_compress (H blk : List Nat) : List Nat :=
  let v := (List.range 64).foldl (fips_round (fips_schedule blk))
    { a := H.getD 0 0, b := H.getD 1 0, c := H.getD 2 0, d := H.getD 3 0,
      e := H.getD 4 0, f := H.getD 5 0, g := H.getD 6 0, h := H.getD 7 0 }
  [(v.a + H.getD 0 0) % 2 ^ 32, (v.b + H.getD 1 0) % 2 ^ 32, (v.c + H.getD 2 0) % 2 ^ 32,
   (v.d + H.getD 3 0) % 2 ^ 32, (v.e + H.getD 4 0) % 2 ^ 32, (v.f + H.getD 5 0) % 2 ^ 32,
   (v.g + H.getD 6 0) % 2 ^ 32, (v.h + H.getD 7 0) % 2 ^ 32]

/-- Hash state after all blocks: the left fold of the compression function
over the blocks, starting from the initial value. -/
def fips_hash (blocks : List (List Nat)) : List Nat :=
  blocks.foldl fips_compress H0

/-- Number `k` of zero bits of the FIPS 180-4 padding of a message of `l` bits:
the smallest non-negative solution of `l + 1 + k ≡ 448 (mod 512)`. -/
def fips_zero_bits (l : Nat) : Nat := (448 + 512 - (l + 1) % 512) % 512

/-- FIPS 180-4 padding of a byte message: the bit `1` (with seven zero bits, the
byte `0x80`), the remaining zero bits, and the bit length on 64 bits, big-endian. -/
def fips_pad (msg : List Nat) : List Nat :=
  msg ++ [0x80] ++ List.replicate ((fips_zero_bits (8 * msg.length) - 7) / 8) 0
    ++ be64_bytes (8 * msg.length)

/-- Big-endian 32-bit word made of the four bytes at offset `o`. -/
def fips_word (bytes : List Nat) (o : Nat) : Nat :=
  bytes.getD o 0 * 2 ^ 24 + bytes.getD (o + 1) 0 * 2 ^ 16 + bytes.getD (o + 2) 0 * 2 ^ 8
    + bytes.getD (o + 3) 0

/-- The 64-byte blocks of a padded message, each as sixteen big-endian words. -/
def fips_blocks (bytes : List Nat) : List (List Nat) :=
  (List.range (bytes.length / 64)).map
    (fun i => (List.range 16).map (fun j => fips_word bytes (64 * i + 4 * j)))

/-- Bytes of the hash state, each word most significant byte first. -/
def fips_serialize (H : List Nat) : List Nat :=
  H.flatMap (fun w => [w / 2 ^ 24 % 256, w / 2 ^ 16 % 256, w / 2 ^ 8 % 256, w % 256])

/-- SHA-256 digest of a byte message as FIPS 180-4 defines it. -/
def fips_sha256 (msg : List Nat) : List Nat :=
  fips_serialize (fips_hash (fips_blocks (fips_pad msg)))

/-- Primality by trial division. -/
def is_prime (n : Nat) : Bool :=
  decide (2 ≤ n) && (List.range n).all (fun d => decide (d < 2) || n % d != 0)

/-- The primes below 312 in increasing order: the first 64 primes. -/
def first_primes : List Nat := (List.range 312).filter is_prime

/-- Largest `r ≤ n` with `r ^ k ≤ n`: the integer part of the `k`-th root of `n`. -/
def iroot (k n : Nat) : Nat :=
  (List.range (n + 1)).foldl (fun acc r => if r ^ k ≤ n then r else acc) 0

/-! ## The size planner -/

theorem u64ToDouble_le (x : Nat) (hx : x < 2 ^ 64) : u64ToDouble x ≤ 2 ^ 64 := by
  unfold u64ToDouble
  split
  · omega
  · have hx0 : x ≠ 0 := by omega
    have hlo : 53 ≤ Nat.log2 x := by
      by_contra hc
      have : Nat.log2 x < 53 := by omega
      rw [Nat.log2_lt hx0] at this
      omega
    have hhi : Nat.log2 x < 64 := (Nat.log2_lt hx0).2 hx
    have hself : x < 2 ^ (Nat.log2 x + 1) := Nat.lt_log2_self
    obtain ⟨e, he⟩ : ∃ e, Nat.log2 x = e + 52 := ⟨Nat.log2 x - 52, by omega⟩
    have he' : Nat.log2 x - 52 = e := by omega
    simp only [he']
    have hq : x / 2 ^ e < 2 ^ 53 := by
      rw [Nat.div_lt_iff_lt_mul (by positivity)]
      have : 2 ^ (Nat.log2 x + 1) = 2 ^ 53 * 2 ^ e := by
        rw [he, ← Nat.pow_add]; congr 1; omega
      omega
    have hpow : 2 ^ 53 * 2 ^ e ≤ 2 ^ 64 := by
      rw [← Nat.pow_add]
      exact Nat.pow_le_pow_right (by norm_num) (by omega)
    have h1 : (x / 2 ^ e + 1) * 2 ^ e ≤ 2 ^ 53 * 2 ^ e := Nat.mul_le_mul_right _ hq
    have h2 : x / 2 ^ e * 2 ^ e ≤ 2 ^ 53 * 2 ^ e := Nat.mul_le_mul_right _ (by omega)
    split <;> omega

theorem pre_pad_isWithinSet (msgSize_byte : Nat) :
    (pre_pad msgSize_byte).isWithinSet = true := by
  have h := u64ToDouble_le ((msgSize_byte * 8) % U64) (Nat.mod_lt _ (by norm_num [U64]))
  simp only [pre_pad, pow_2_64]
  rw [if_neg (by omega)]

/-- Closed form of `pre_pad` where the subtraction `448 - (r + 1)` does not wrap. -/
theorem pre_pad_good (L : Nat) (h1 : L % 64 ≤ 55) (h2 : L < 2 ^ 61 - 64) :
    (pre_pad L).newSize_byte = L - L % 64 + 64 ∧
      (pre_pad L).zeroPadSize = 447 - 8 * (L % 64) := by
  simp only [pre_pad, sub64, add64, U64, MSGBLOCK_BITS]
  norm_num
  omega

/-- Closed form of `pre_pad` where the subtraction `448 - (r + 1)` wraps. -/
theorem pre_pad_wrap (L : Nat) (h1 : 56 ≤ L % 64) (h2 : L < 2 ^ 61 - 64) :
    (pre_pad L).newSize_byte = L - L % 64 + 64 ∧
      (pre_pad L).zeroPadSize = 2 ^ 64 + 447 - 8 * (L % 64) := by
  simp only [pre_pad, sub64, add64, U64, MSGBLOCK_BITS]
  norm_num
  omega

/-! ## Sequential filling of a fresh buffer -/

theorem filled_length (pre : List Nat) (m : Nat) : (filled pre m).length = pre.length + m := by
  simp [filled]

theorem store_filled (pre : List Nat) (m v : Nat) :
    store (filled pre (m + 1)) pre.length v = some (filled (pre ++ [v]) m) := by
  unfold store
  rw [if_pos (by simp [filled])]
  congr 1
  simp [filled, List.replicate_succ]

theorem store_filled_full (pre : List Nat) (v : Nat) :
    store (filled pre 0) pre.length v = none := by
  simp [store, filled]

theorem pad_copy_filled (msg : List Nat) :
    ∀ (n : Nat) (pre : List Nat) (m : Nat), pre.length + n ≤ msg.length → n ≤ m →
      pad_copy msg n pre.length (filled pre (m))
        = some (filled (pre ++ (msg.drop pre.length).take n) (m - n), pre.length + n) := by
  intro n
  induction n with
  | zero => intro pre m _ _; simp [pad_copy]
  | succ n ih =>
    intro pre m h1 h2
    obtain ⟨m', rfl⟩ : ∃ m', m = m' + 1 := ⟨m - 1, by omega⟩
    have hlt : pre.length < msg.length := by omega
    rw [pad_copy, List.get?_eq_getElem?, List.getElem?_eq_getElem hlt]
    simp only [store_filled]
    have := ih (pre ++ [msg[pre.length]]) m' (by simp; omega) (by omega)
    simp only [List.length_append, List.length_singleton] at this
    rw [this, Nat.add_sub_add_right, List.append_assoc, List.drop_eq_getElem_cons hlt,
      List.take_succ_cons, Nat.add_assoc, Nat.add_comm 1 n]
    rfl

theorem pad_zero_filled :
    ∀ (n : Nat) (pre : List Nat) (m : Nat), n ≤ m →
      pad_zero n pre.length (filled pre m)
        = some (filled (pre ++ List.replicate n 0) (m - n), pre.length + n) := by
  intro n
  induction n with
  | zero => intro pre m _; simp [pad_zero]
  | succ n ih =>
    intro pre m h2
    obtain ⟨m', rfl⟩ : ∃ m', m = m' + 1 := ⟨m - 1, by omega⟩
    rw [pad_zero]
    simp only [store_filled]
    have := ih (pre ++ [0]) m' (by omega)
    simp only [List.length_append, List.length_singleton] at this
    rw [this, Nat.add_sub_add_right, List.append_assoc, List.replicate_succ, Nat.add_assoc,
      Nat.add_comm 1 n]
    rfl

theorem pad_zero_overrun :
    ∀ (n : Nat) (pre : List Nat) (m : Nat), m < n →
      pad_zero n pre.length (filled pre m) = none := by
  intro n
  induction n with
  | zero => intro pre m h; omega
  | succ n ih =>
    intro pre m h
    rw [pad_zero]
    cases m with
    | zero => simp [store_filled_full]
    | succ m' =>
      simp only [store_filled]
      have := ih (pre ++ [0]) m' (by omega)
      simpa using this

theorem pad_len_filled (bitlen : Nat) :
    ∀ (n k : Nat) (pre : List Nat) (m : Nat), n ≤ m →
      pad_len bitlen n k pre.length (filled pre m)
        = some (filled (pre ++ len_bytes bitlen n k) (m - n), pre.length + n) := by
  intro n
  induction n with
  | zero => intro k pre m _; simp [pad_len, len_bytes]
  | succ n ih =>
    intro k pre m h2
    obtain ⟨m', rfl⟩ : ∃ m', m = m' + 1 := ⟨m - 1, by omega⟩
    rw [pad_len]
    simp only [store_filled]
    have := ih (k + 1) (pre ++ [(bitlen >>> ((7 - k) * 8)) &&& 0xFF]) m' (by omega)
    simp only [List.length_append, List.length_singleton] at this
    rw [this, Nat.add_sub_add_right, List.append_assoc, len_bytes, Nat.add_assoc,
      Nat.add_comm 1 n]
    rfl

theorem pad_len_overrun (bitlen : Nat) :
    ∀ (n k : Nat) (pre : List Nat) (m : Nat), m < n →
      pad_len bitlen n k pre.length (filled pre m) = none := by
  intro n
  induction n with
  | zero => intro k pre m h; omega
  | succ n ih =>
    intro k pre m h
    rw [pad_len]
    cases m with
    | zero => simp [store_filled_full]
    | succ m' =>
      simp only [store_filled]
      have := ih (k + 1) (pre ++ [(bitlen >>> ((7 - k) * 8)) &&& 0xFF]) m' (by omega)
      simpa using this

theorem pad_copy_overrun (msg : List Nat) :
    ∀ (n : Nat) (pre : List Nat) (m : Nat), m < n →
      pad_copy msg n pre.length (filled pre m) = none := by
  intro n
  induction n with
  | zero => intro pre m h; omega
  | succ n ih =>
    intro pre m h
    rw [pad_copy]
    cases hg : msg.get? pre.length with
    | none => rfl
    | some v =>
      cases m with
      | zero => simp [store_filled_full]
      | succ m' =>
        simp only [store_filled]
        have := ih (pre ++ [v]) m' (by omega)
        simpa using this

theorem alloc_eq_filled (B : Nat) : alloc B = filled [] B := by
  simp [alloc, filled]

/-- The content `pad_msg` gives to a fresh buffer of `B` cells, for any value of
`bzeros`: the stores are sequential, and the call is defined exactly when all
of them fit in the buffer. -/
theorem pad_msg_fresh (msg : List Nat) (ns bz B : Nat) :
    pad_msg msg msg.length ns bz (alloc B) =
      if msg.length + 1 + zero_iters msg.length bz + 8 ≤ B then
        some (filled (msg ++ [0x80] ++ List.replicate (zero_iters msg.length bz) 0
                ++ len_bytes ((msg.length * 8) % U64) 8 0)
              (B - (msg.length + 1 + zero_iters msg.length bz + 8)),
              msg.length + 1 + zero_iters msg.length bz + 8)
      else none := by
  unfold pad_msg
  rw [alloc_eq_filled]
  by_cases hL : msg.length ≤ B
  · have h1 := pad_copy_filled msg msg.length [] B (by simp) hL
    simp only [List.length_nil, List.drop_zero, List.take_length, List.nil_append,
      Nat.zero_add] at h1
    simp only [h1]
    by_cases hB : B - msg.length = 0
    · rw [hB, store_filled_full, if_neg (by omega)]
    · obtain ⟨m, hm⟩ : ∃ m, B - msg.length = m + 1 := ⟨B - msg.length - 1, by omega⟩
      rw [hm, store_filled]
      rw [show add64 (add64 msg.length 1) (sub64 bz 7 / 8) - (msg.length + 1)
        = zero_iters msg.length bz from rfl]
      by_cases hz : zero_iters msg.length bz ≤ m
      · have hz1 := pad_zero_filled _ (msg ++ [0x80]) m hz
        simp only [List.length_append, List.length_singleton] at hz1
        simp only [hz1]
        by_cases h8 : 8 ≤ m - zero_iters msg.length bz
        · have hz2 := pad_len_filled ((msg.length * 8) % U64) 8 0
            (msg ++ [0x80] ++ List.replicate (zero_iters msg.length bz) 0) _ h8
          simp only [List.length_append, List.length_singleton, List.length_replicate] at hz2
          rw [hz2, if_pos (by omega)]
          simp only [Option.some.injEq, Prod.mk.injEq, and_true]
          congr 1
          omega
        · have hz2 := pad_len_overrun ((msg.length * 8) % U64) 8 0
            (msg ++ [0x80] ++ List.replicate (zero_iters msg.length bz) 0)
            (m - zero_iters msg.length bz) (by omega)
          simp only [List.length_append, List.length_singleton, List.length_replicate] at hz2
          rw [hz2, if_neg (by omega)]
      · have hz1 := pad_zero_overrun (zero_iters msg.length bz) (msg ++ [0x80]) m (by omega)
        simp only [List.length_append, List.length_singleton] at hz1
        simp only [hz1]
        rw [if_neg (by omega)]
  · have h1 := pad_copy_overrun msg msg.length [] B (by omega)
    simp only [List.length_nil] at h1
    simp only [h1]
    rw [if_neg (by omega)]

/-! ## Serialisation of the final state -/

theorem store_digest_eq (d : List Nat) (i v : Nat) (h : i < d.length) :
    store_digest d i v = some (d.set i v) := by
  simp [store_digest, h]

theorem digest_pre_length (HN : List Nat) :
    ∀ (n x : Nat) (d : List Nat), x + n ≤ d.length →
      ∃ r, digest_pre HN n x d = some r ∧ r.length = d.length := by
  intro n
  induction n with
  | zero => intro x d _; exact ⟨d, rfl, rfl⟩
  | succ n ih =>
    intro x d h
    rw [digest_pre, store_digest_eq _ _ _ (by omega)]
    obtain ⟨r, hr, hl⟩ := ih (x + 1) (d.set x (HN.getD (x / 4) 0 % 2 ^ 8)) (by simp; omega)
    exact ⟨r, hr, by simpa using hl⟩

theorem digest_ser_spec (HN : List Nat) :
    ∀ (n x : Nat) (d : List Nat), 4 * (x + n) ≤ d.length →
      ∃ r, digest_ser HN n x d = some r ∧ r.length = d.length ∧
        ∀ i, i < d.length → r[i]? =
          if 4 * x ≤ i ∧ i < 4 * (x + n)
          then some ((HN.getD (i / 4) 0 >>> (8 * (3 - i % 4))) &&& 0xFF) else d[i]? := by
  intro n
  induction n with
  | zero =>
    intro x d _
    refine ⟨d, rfl, rfl, ?_⟩
    intro i _
    rw [if_neg (by omega)]
  | succ n ih =>
    intro x d h
    rw [digest_ser, store_digest_eq _ _ _ (by omega)]
    simp only
    rw [store_digest_eq _ _ _ (by simp only [List.length_set]; omega)]
    simp only
    rw [store_digest_eq _ _ _ (by simp only [List.length_set]; omega)]
    simp only
    rw [store_digest_eq _ _ _ (by simp only [List.length_set]; omega)]
    simp only
    generalize hd0 : (((d.set (x * 4 + 3) (HN.getD x 0 &&& 0xFF)).set (x * 4 + 2)
      ((HN.getD x 0 >>> 8) &&& 0xFF)).set (x * 4 + 1) ((HN.getD x 0 >>> 16) &&& 0xFF)).set
      (x * 4 + 0) ((HN.getD x 0 >>> 24) &&& 0xFF) = d0
    have hl0 : d0.length = d.length := by rw [← hd0]; simp only [List.length_set]
    obtain ⟨r, hr, hl, hi⟩ := ih (x + 1) d0 (by omega)
    refine ⟨r, hr, by omega, ?_⟩
    intro i hid
    rw [hi i (by omega)]
    by_cases h1 : 4 * (x + 1) ≤ i ∧ i < 4 * (x + 1 + n)
    · rw [if_pos h1, if_pos (by omega)]
    · rw [if_neg h1, ← hd0]
      simp only [List.getElem?_set, List.length_set]
      by_cases h2 : 4 * x ≤ i ∧ i < 4 * (x + (n + 1))
      · rw [if_pos h2]
        have hcase : i = x * 4 + 0 ∨ i = x * 4 + 1 ∨ i = x * 4 + 2 ∨ i = x * 4 + 3 := by omega
        rcases hcase with rfl | rfl | rfl | rfl
        · have e1 : (x * 4 + 0) / 4 = x := by omega
          have e2 : (x * 4 + 0) % 4 = 0 := by omega
          rw [if_pos rfl, if_pos (by omega), e1, e2]
        · have e1 : (x * 4 + 1) / 4 = x := by omega
          have e2 : (x * 4 + 1) % 4 = 1 := by omega
          rw [if_neg (by omega), if_pos rfl, if_pos (by omega), e1, e2]
        · have e1 : (x * 4 + 2) / 4 = x := by omega
          have e2 : (x * 4 + 2) % 4 = 2 := by omega
          rw [if_neg (by omega), if_neg (by omega), if_pos rfl, if_pos (by omega), e1, e2]
        · have e1 : (x * 4 + 3) / 4 = x := by omega
          have e2 : (x * 4 + 3) % 4 = 3 := by omega
          rw [if_neg (by omega), if_neg (by omega), if_neg (by omega), if_pos rfl,
            if_pos (by omega), e1, e2]
          rfl
      · rw [if_neg h2]
        rw [if_neg (by omega), if_neg (by omega), if_neg (by omega), if_neg (by omega)]

theorem serialize_eq (HN digest : List Nat) (h : digest.length = 32) :
    (match digest_pre HN (MSGDIGEST_BITS / HASHWORD) 0 digest with
      | none => none
      | some d => digest_ser HN HASHWORD 0 d) = some (digest_bytes HN) := by
  obtain ⟨d1, h1, hl1⟩ := digest_pre_length HN (MSGDIGEST_BITS / HASHWORD) 0 digest
    (by simp [MSGDIGEST_BITS, HASHWORD, h])
  obtain ⟨r, h2, hl2, hi⟩ := digest_ser_spec HN HASHWORD 0 d1 (by simp [HASHWORD]; omega)
  rw [h1]
  simp only [h2, Option.some.injEq]
  apply List.ext_getElem?
  intro i
  by_cases hi32 : i < 32
  · rw [hi i (by omega), if_pos (by simp [HASHWORD]; omega)]
    simp [digest_bytes, List.getElem?_map, List.getElem?_range hi32]
  · rw [List.getElem?_eq_none (by omega), List.getElem?_eq_none (by simp [digest_bytes]; omega)]

theorem sha256_algo_eq (M : List (List Nat)) (N : Nat) (digest : List Nat)
    (h : digest.length = 32) :
    sha256_algo M N digest = (sha256_state M N).map digest_bytes := by
  unfold sha256_algo
  cases hs : sha256_state M N with
  | none => rfl
  | some HN => simpa using serialize_eq HN digest h

/-! ## Parsing a completely written buffer, and the block loop -/

theorem load_filled (bytes : List Nat) (i : Nat) (h : i < bytes.length) :
    load (filled bytes 0) i = some (bytes.getD i 0) := by
  simp [load, filled, List.getElem?_map, List.getElem?_eq_getElem h, List.getD_eq_getElem _ _ h]

theorem parse_word_filled (bytes : List Nat) (i j : Nat) (h : 64 * i + j * 4 + 3 < bytes.length) :
    parse_word (filled bytes 0) i j = some (be_word bytes (64 * i + j * 4)) := by
  unfold parse_word
  have e : MSGBLOCK_BITS / 8 = 64 := by decide
  rw [e, load_filled _ _ (by omega), load_filled _ _ (by omega), load_filled _ _ (by omega),
    load_filled _ _ (by omega)]
  rfl

theorem parse_row_filled (bytes : List Nat) (i : Nat) :
    ∀ (n j : Nat) (row : List Nat), 64 * i + (j + n) * 4 ≤ bytes.length →
      parse_row (filled bytes 0) i n j row
        = some (row ++ (List.range' j n).map (fun j => be_word bytes (64 * i + j * 4))) := by
  intro n
  induction n with
  | zero => intro j row _; simp [parse_row]
  | succ n ih =>
    intro j row h
    rw [parse_row, parse_word_filled _ _ _ (by omega)]
    simp only
    rw [ih (j + 1) _ (by omega)]
    simp [List.range'_succ]

theorem parse_blocks_filled (bytes : List Nat) :
    ∀ (n i : Nat) (acc : List (List Nat)), 64 * (i + n) ≤ bytes.length →
      parse_blocks (filled bytes 0) n i acc = some (acc ++ blocks_of bytes i n) := by
  intro n
  induction n with
  | zero => intro i acc _; simp [parse_blocks, blocks_of]
  | succ n ih =>
    intro i acc h
    have e : MSGBLOCK_BITS / WORD_BITS = 16 := by decide
    rw [parse_blocks, e, parse_row_filled _ _ _ _ _ (by omega)]
    simp only
    rw [ih (i + 1) _ (by omega)]
    simp [blocks_of, List.range'_succ]

theorem parse_msg_filled (bytes : List Nat) (blksize : Nat) (h : 64 * blksize ≤ bytes.length) :
    parse_msg (filled bytes 0) blksize = some (blocks_of bytes 0 blksize) := by
  unfold parse_msg
  rw [parse_blocks_filled _ _ _ _ (by omega)]
  simp

theorem blocks_of_length (bytes : List Nat) (i n : Nat) : (blocks_of bytes i n).length = n := by
  simp [blocks_of]

theorem blocks_of_row_length (bytes : List Nat) (i n : Nat) :
    ∀ Mi ∈ blocks_of bytes i n, Mi.length = 16 := by
  intro Mi h
  simp only [blocks_of, List.mem_map] at h
  obtain ⟨k, _, rfl⟩ := h
  simp

theorem sched_loop_some (Mi : List Nat) (hM : 16 ≤ Mi.length) :
    ∀ (n t : Nat) (W : List Nat), ∃ W1, sched_loop Mi n t W = some W1 := by
  intro n
  induction n with
  | zero => intro t W; exact ⟨W, rfl⟩
  | succ n ih =>
    intro t W
    rw [sched_loop]
    split
    · rename_i ht
      rw [List.get?_eq_getElem?, List.getElem?_eq_getElem (by omega)]
      exact ih _ _
    · exact ih _ _

theorem block_loop_some (M : List (List Nat)) (hM : ∀ Mi ∈ M, 16 ≤ Mi.length) :
    ∀ (n i : Nat) (W : List Nat) (H : List (List Nat)), 1 ≤ i → i - 1 + n ≤ M.length →
      ∃ H1, block_loop M n i W H = some H1 ∧ H1.length = H.length := by
  intro n
  induction n with
  | zero => intro i W H _ _; exact ⟨H, rfl, rfl⟩
  | succ n ih =>
    intro i W H h1 h2
    have hlt : i - 1 < M.length := by omega
    rw [block_loop, List.get?_eq_getElem?, List.getElem?_eq_getElem hlt]
    simp only
    obtain ⟨W1, hW⟩ := sched_loop_some M[i - 1] (hM _ (List.getElem_mem _)) MSGSCHED 0 W
    rw [hW]
    simp only
    obtain ⟨H1, hH, hl⟩ := ih (i + 1) W1 (H.set i (next_hash (rounds W1 (init_vars (H.getD (i - 1) [])))
      (H.getD (i - 1) []))) (by omega) (by omega)
    exact ⟨H1, hH, by simpa using hl⟩

theorem sha256_state_some (M : List (List Nat)) (N : Nat) (hM : ∀ Mi ∈ M, 16 ≤ Mi.length)
    (hN : N ≤ M.length) : ∃ HN, sha256_state M N = some HN := by
  obtain ⟨H1, hH, _⟩ := block_loop_some M hM N 1 (List.replicate MSGSCHED 0) (init_H N)
    (by omega) (by omega)
  exact ⟨H1.getD N [], by simp [sha256_state, hH]⟩

/-! ## The driver on accepted and on overrunning lengths -/

theorem zero_iters_good (L : Nat) (h1 : L % 64 ≤ 55) (h2 : L < 2 ^ 61 - 64) :
    zero_iters L (pre_pad L).zeroPadSize = 55 - L % 64 := by
  rw [(pre_pad_good L h1 h2).2]
  simp only [zero_iters, add64, sub64, U64]
  norm_num
  omega

theorem zero_iters_wrap (L : Nat) (h1 : 56 ≤ L % 64) (h2 : L < 2 ^ 61 - 64) :
    zero_iters L (pre_pad L).zeroPadSize = 2 ^ 61 + 55 - L % 64 := by
  rw [(pre_pad_wrap L h1 h2).2]
  simp only [zero_iters, add64, sub64, U64]
  norm_num
  omega

theorem len_bytes_length (bitlen : Nat) : ∀ n k, (len_bytes bitlen n k).length = n := by
  intro n
  induction n with
  | zero => intro k; rfl
  | succ n ih => intro k; simp [len_bytes, ih]

theorem padded_length (msg : List Nat) (h1 : msg.length % 64 ≤ 55) :
    (padded msg).length = msg.length - msg.length % 64 + 64 := by
  simp only [padded, List.length_append, List.length_singleton, List.length_replicate,
    len_bytes_length]
  omega

theorem pad_msg_good (msg : List Nat) (h1 : msg.length % 64 ≤ 55)
    (h2 : msg.length < 2 ^ 61 - 64) :
    pad_msg msg msg.length (pre_pad msg.length).newSize_byte (pre_pad msg.length).zeroPadSize
        (alloc (pre_pad msg.length).newSize_byte)
      = some (filled (padded msg) 0, (pre_pad msg.length).newSize_byte) := by
  rw [pad_msg_fresh, zero_iters_good _ h1 h2, (pre_pad_good _ h1 h2).1]
  rw [if_pos (by omega)]
  simp only [padded, Option.some.injEq, Prod.mk.injEq]
  constructor
  · congr 1
    omega
  · omega

theorem pad_msg_overrun (msg : List Nat) (h1 : 56 ≤ msg.length % 64)
    (h2 : msg.length < 2 ^ 61 - 64) :
    pad_msg msg msg.length (pre_pad msg.length).newSize_byte (pre_pad msg.length).zeroPadSize
        (alloc (pre_pad msg.length).newSize_byte) = none := by
  rw [pad_msg_fresh, zero_iters_wrap _ h1 h2, (pre_pad_wrap _ h1 h2).1]
  rw [if_neg (by omega)]

theorem sha256_digest_indep (msg : List Nat) (L : Nat) (digest : List Nat)
    (h : digest.length = 32) :
    sha256 msg L digest = sha256 msg L (List.replicate 32 0) := by
  unfold sha256
  simp only [pre_pad_isWithinSet, Bool.not_true, Bool.false_eq_true, if_false]
  simp only [sha256_algo_eq _ _ digest h, sha256_algo_eq _ _ (List.replicate 32 0) (by simp)]

theorem sha256_overrun (msg digest : List Nat) (h1 : 56 ≤ msg.length % 64)
    (h2 : msg.length < 2 ^ 61 - 64) : sha256 msg msg.length digest = none := by
  unfold sha256
  simp only [pre_pad_isWithinSet, Bool.not_true, Bool.false_eq_true, if_false]
  rw [pad_msg_overrun msg h1 h2]

theorem sha256_good (msg digest : List Nat) (h1 : msg.length % 64 ≤ 55)
    (h2 : msg.length < 2 ^ 61 - 64) (hd : digest.length = 32) :
    ∃ HN, sha256_state (blocks_of (padded msg) 0 ((padded msg).length / 64))
            ((padded msg).length / 64) = some HN ∧
      sha256 msg msg.length digest = some (true, digest_bytes HN) := by
  have hns := (pre_pad_good _ h1 h2).1
  have hpl := padded_length msg h1
  have hblk : (pre_pad msg.length).newSize_byte / (WORD_BITS / 8) / 16 = (padded msg).length / 64 := by
    rw [hns, hpl]
    have : WORD_BITS / 8 = 4 := by decide
    rw [this]
    omega
  obtain ⟨HN, hHN⟩ := sha256_state_some (blocks_of (padded msg) 0 ((padded msg).length / 64))
    ((padded msg).length / 64)
    (fun Mi hMi => by rw [blocks_of_row_length _ _ _ Mi hMi]) (by rw [blocks_of_length])
  refine ⟨HN, hHN, ?_⟩
  unfold sha256
  simp only [pre_pad_isWithinSet, Bool.not_true, Bool.false_eq_true, if_false]
  rw [pad_msg_good msg h1 h2]
  simp only [hblk]
  rw [parse_msg_filled _ _ (by omega)]
  simp only [sha256_algo_eq _ _ digest hd, hHN, Option.map_some']

/-! ## The claims -/

set_option maxRecDepth 100000

/-- C1 (code defect): on the 56-byte two-block test message of FIPS 180-4, a
length within `0 .. 2^61-1`, `pre_pad` plans a 64-byte buffer, and `sha256`
stores outside of it: the call is undefined, it returns neither `true` nor the
digest `248d6a61 .. 19db06c1`. -/
theorem C1_two_block_vector_undefined :
    nist_two_block_msg.length = 56 ∧
      (pre_pad 56).newSize_byte = 64 ∧
      sha256 nist_two_block_msg 56 (List.replicate 32 0) = none := by
  decide

/-- C2: for the message "abc" and every 32-byte `digest` array, `sha256` returns
`true` and leaves the bytes `ba7816bf 8f01cfea 414140de 5dae2223 b00361a3
96177a9c b410ff61 f20015ad` in `digest`. -/
theorem C2_abc_digest (digest : List Nat) (hd : digest.length = 32) :
    sha256 [0x61, 0x62, 0x63] 3 digest = some (true,
      [0xba, 0x78, 0x16, 0xbf, 0x8f, 0x01, 0xcf, 0xea, 0x41, 0x41, 0x40, 0xde, 0x5d, 0xae, 0x22,
       0x23, 0xb0, 0x03, 0x61, 0xa3, 0x96, 0x17, 0x7a, 0x9c, 0xb4, 0x10, 0xff, 0x61, 0xf2, 0x00,
       0x15, 0xad]) := by
  rw [sha256_digest_indep _ _ digest hd]
  decide

theorem C2_abc_digest_witness :
    (List.replicate 32 0xEE).length = 32 ∧
      sha256 [0x61, 0x62, 0x63] 3 (List.replicate 32 0xEE) = some (true,
        [0xba, 0x78, 0x16, 0xbf, 0x8f, 0x01, 0xcf, 0xea, 0x41, 0x41, 0x40, 0xde, 0x5d, 0xae,
         0x22, 0x23, 0xb0, 0x03, 0x61, 0xa3, 0x96, 0x17, 0x7a, 0x9c, 0xb4, 0x10, 0xff, 0x61,
         0xf2, 0x00, 0x15, 0xad]) :=
  ⟨by decide, C2_abc_digest (List.replicate 32 0xEE) (by decide)⟩

/-- C3: for the empty message and every 32-byte `digest` array, the padded
buffer is one block made of `0x80`, 55 zero bytes and an all-zero length field,
`sha256` returns `true` and leaves the bytes `e3b0c442 98fc1c14 9afbf4c8
996fb924 27ae41e4 649b934c a495991b 7852b855` in `digest`. -/
theorem C3_empty_digest (digest : List Nat) (hd : digest.length = 32) :
    pad_msg [] 0 (pre_pad 0).newSize_byte (pre_pad 0).zeroPadSize
        (alloc (pre_pad 0).newSize_byte)
      = some ((0x80 :: List.replicate 55 0x00 ++ List.replicate 8 0x00).map some, 64) ∧
    sha256 [] 0 digest = some (true,
      [0xe3, 0xb0, 0xc4, 0x42, 0x98, 0xfc, 0x1c, 0x14, 0x9a, 0xfb, 0xf4, 0xc8, 0x99, 0x6f, 0xb9,
       0x24, 0x27, 0xae, 0x41, 0xe4, 0x64, 0x9b, 0x93, 0x4c, 0xa4, 0x95, 0x99, 0x1b, 0x78, 0x52,
       0xb8, 0x55]) := by
  rw [sha256_digest_indep _ _ digest hd]
  decide

theorem C3_empty_digest_witness :
    (List.replicate 32 0xEE).length = 32 ∧
      sha256 [] 0 (List.replicate 32 0xEE) = some (true,
        [0xe3, 0xb0, 0xc4, 0x42, 0x98, 0xfc, 0x1c, 0x14, 0x9a, 0xfb, 0xf4, 0xc8, 0x99, 0x6f,
         0xb9, 0x24, 0x27, 0xae, 0x41, 0xe4, 0x64, 0x9b, 0x93, 0x4c, 0xa4, 0x95, 0x99, 0x1b,
         0x78, 0x52, 0xb8, 0x55]) :=
  ⟨by decide, (C3_empty_digest (List.replicate 32 0xEE) (by decide)).2⟩

/-- C4 (code defect): for every message of exactly 56 bytes `pre_pad` plans a
buffer of 64 bytes, not 128, the zero-fill loop of `pad_msg` is asked for
`2^61 - 1` iterations, and `sha256` stores outside the buffer: no second block
is compressed and no digest is produced. -/
theorem C4_fifty_six_bytes_undefined (msg digest : List Nat) (h : msg.length = 56) :
    (pre_pad msg.length).newSize_byte = 64 ∧
      zero_iters msg.length (pre_pad msg.length).zeroPadSize = 2 ^ 61 - 1 ∧
      sha256 msg msg.length digest = none := by
  refine ⟨?_, ?_, sha256_overrun msg digest (by omega) (by omega)⟩
  · rw [h]; decide
  · rw [h]; decide

theorem C4_fifty_six_bytes_undefined_witness :
    (List.replicate 56 0x00).length = 56 ∧
      (pre_pad (List.replicate 56 0x00).length).newSize_byte = 64 ∧
      zero_iters (List.replicate 56 0x00).length
        (pre_pad (List.replicate 56 0x00).length).zeroPadSize = 2 ^ 61 - 1 ∧
      sha256 (List.replicate 56 0x00) (List.replicate 56 0x00).length (List.replicate 32 0)
        = none :=
  ⟨by decide, C4_fifty_six_bytes_undefined (List.replicate 56 0x00) (List.replicate 32 0)
    (by decide)⟩

/-- C5 (code defect): for `msgSize_byte = 2^61`, whose bit length does not fit
the 64-bit length field, `pre_pad` returns `true` and plans a 64-byte buffer;
even the largest `uint64_t` converts to the double `2^64`, which is not greater
than `pow( 2, 64 )`. -/
theorem C5_too_large_accepted :
    pre_pad (2 ^ 61) = { isWithinSet := true, newSize_byte := 64, zeroPadSize := 447 } ∧
      u64ToDouble (2 ^ 64 - 1) = pow_2_64 := by
  refine ⟨by decide, ?_⟩
  have h1 : 63 ≤ Nat.log2 (2 ^ 64 - 1) := (Nat.le_log2 (by norm_num)).2 (by norm_num)
  have h2 : Nat.log2 (2 ^ 64 - 1) < 64 := (Nat.log2_lt (by norm_num)).2 (by norm_num)
  have hl : Nat.log2 (2 ^ 64 - 1) = 63 := by omega
  simp only [u64ToDouble, hl, pow_2_64]
  norm_num

theorem sha256_never_false (msg : List Nat) (msgSize_byte : Nat) (digest d : List Nat) :
    sha256 msg msgSize_byte digest ≠ some (false, d) := by
  unfold sha256
  simp only [pre_pad_isWithinSet, Bool.not_true, Bool.false_eq_true, if_false]
  split
  · simp
  · split
    · simp
    · split <;> simp

/-- C6 (code defect): the overflow check of `pre_pad` is false for every input,
so `pre_pad` returns `true` for every `msgSize_byte` and `sha256` never returns
`false`; yet `sha256` does not return `true` for every length up to `2^61 - 1`:
for a 63-byte message it plans a 64-byte buffer, stores outside of it and
returns nothing. -/
theorem C6_check_dead_but_sha256_overruns :
    (∀ msgSize_byte, (pre_pad msgSize_byte).isWithinSet = true) ∧
      (∀ msg msgSize_byte digest d, sha256 msg msgSize_byte digest ≠ some (false, d)) ∧
      (pre_pad 63).newSize_byte = 64 ∧
      sha256 (List.replicate 63 0x61) 63 (List.replicate 32 0) = none :=
  ⟨pre_pad_isWithinSet, sha256_never_false, by decide, by decide⟩

/-- C7: for every message length, the padded length `newSize_byte` computed by
`pre_pad` with its arithmetic modulo `2^64` is a multiple of 64. -/
theorem C7_newSize_multiple_of_64 (msgSize_byte : Nat) :
    (pre_pad msgSize_byte).newSize_byte % 64 = 0 := by
  simp only [pre_pad, sub64, add64, U64, MSGBLOCK_BITS]
  norm_num
  omega

/-- C8 (code defect): for a 60-byte message, a length below `2^61`, `pre_pad`
plans 64 bytes and `pad_msg` stores outside the buffer: no padded buffer whose
last eight bytes encode `60 * 8` is produced. -/
theorem C8_length_field_not_written :
    (pre_pad 60).newSize_byte = 64 ∧
      pad_msg (List.replicate 60 0x41) 60 (pre_pad 60).newSize_byte (pre_pad 60).zeroPadSize
        (alloc (pre_pad 60).newSize_byte) = none := by
  decide

/-- C9 (code defect): for every message whose length `L < 2^61 - 64` has
`L mod 64 ≥ 56`, the planned buffer is shorter than `L + 9`, the stores of
`pad_msg` would end at an index larger than the planned length, and `pad_msg`
stores outside the buffer `sha256` allocates. -/
theorem C9_padder_overruns (msg : List Nat) (h1 : 56 ≤ msg.length % 64)
    (h2 : msg.length < 2 ^ 61 - 64) :
    (pre_pad msg.length).newSize_byte < msg.length + 9 ∧
      (pre_pad msg.length).newSize_byte
        < msg.length + 1 + zero_iters msg.length (pre_pad msg.length).zeroPadSize + 8 ∧
      pad_msg msg msg.length (pre_pad msg.length).newSize_byte
        (pre_pad msg.length).zeroPadSize (alloc (pre_pad msg.length).newSize_byte) = none := by
  refine ⟨?_, ?_, pad_msg_overrun msg h1 h2⟩
  · rw [(pre_pad_wrap _ h1 h2).1]; omega
  · rw [(pre_pad_wrap _ h1 h2).1, zero_iters_wrap _ h1 h2]; omega

theorem C9_padder_overruns_witness :
    (pre_pad (List.replicate 56 0x00).length).newSize_byte < (List.replicate 56 0x00).length + 9 ∧
      (pre_pad (List.replicate 56 0x00).length).newSize_byte
        < (List.replicate 56 0x00).length + 1
          + zero_iters (List.replicate 56 0x00).length
              (pre_pad (List.replicate 56 0x00).length).zeroPadSize + 8 ∧
      pad_msg (List.replicate 56 0x00) (List.replicate 56 0x00).length
        (pre_pad (List.replicate 56 0x00).length).newSize_byte
        (pre_pad (List.replicate 56 0x00).length).zeroPadSize
        (alloc (pre_pad (List.replicate 56 0x00).length).newSize_byte) = none :=
  C9_padder_overruns (List.replicate 56 0x00) (by decide) (by decide)

/-- C10 (code defect): with `r = 8 * L mod 512`, the `zeroPadSize` returned by
`pre_pad` is `(448 - (r + 1)) mod 512` when `L mod 64 ≤ 55`; when
`L mod 64 ≥ 56` the subtraction wraps and `zeroPadSize` is that value plus
`2^64 - 512`, larger than 511. -/
theorem C10_zeroPadSize_not_normalised (L : Nat) (hL : L ≤ 2 ^ 61 - 1) :
    (L % 64 ≤ 55 →
      ((pre_pad L).zeroPadSize : Int) = (448 - ((8 * L % 512 : Nat) + 1)) % 512) ∧
    (56 ≤ L % 64 →
      ((pre_pad L).zeroPadSize : Int) = (448 - ((8 * L % 512 : Nat) + 1)) % 512 + (2 ^ 64 - 512) ∧
      511 < (pre_pad L).zeroPadSize) := by
  simp only [pre_pad, sub64, add64, U64, MSGBLOCK_BITS]
  norm_num
  omega

theorem C10_zeroPadSize_not_normalised_witness :
    511 < (pre_pad 56).zeroPadSize :=
  ((C10_zeroPadSize_not_normalised 56 (by decide)).2 (by decide)).2

theorem and_255 (x : Nat) : x &&& 0xFF = x % 256 :=
  Nat.and_pow_two_sub_one_eq_mod x 8

theorem len_bytes_eq_be64 (bitlen : Nat) : len_bytes bitlen 8 0 = be64_bytes bitlen := by
  simp only [len_bytes, be64_bytes, and_255, Nat.shiftRight_eq_div_pow]
  norm_num

theorem padded_getElem_msg (msg : List Nat) (i : Nat) (h : i < msg.length) :
    (filled (padded msg) 0)[i]? = some (some msg[i]) := by
  simp only [filled, padded, List.replicate_zero, List.append_nil, List.getElem?_map,
    List.append_assoc]
  rw [List.getElem?_append_left h, List.getElem?_eq_getElem h]
  rfl

theorem padded_getElem_marker (msg : List Nat) :
    (filled (padded msg) 0)[msg.length]? = some (some 0x80) := by
  simp only [filled, padded, List.replicate_zero, List.append_nil, List.getElem?_map,
    List.append_assoc]
  rw [List.getElem?_append_right (Nat.le_refl _)]
  simp

theorem padded_getElem_zero (msg : List Nat) (i : Nat) (h1 : msg.length < i)
    (h2 : i < msg.length + 1 + (55 - msg.length % 64)) :
    (filled (padded msg) 0)[i]? = some (some 0x00) := by
  simp only [filled, padded, List.replicate_zero, List.append_nil, List.getElem?_map]
  rw [List.getElem?_append_left (by simp; omega),
    List.getElem?_append_right (by simp; omega)]
  simp only [List.length_append, List.length_singleton]
  rw [List.getElem?_replicate, if_pos (by omega)]
  rfl

/-- C11 (code defect): for `L < 2^61 - 64` the value `(8*L + 1 + z + 64) / 8`
with `z = (448 - ((8*L mod 512) + 1)) mod 512` is the smallest multiple of 64
that is at least `L + 9`; `pre_pad` returns it when `L mod 64 ≤ 55`, but when
`L mod 64 ≥ 56` it returns 64 less, a length below `L + 9`. -/
theorem C11_newSize_formula (L : Nat) (hL : L < 2 ^ 61 - 64) :
    ((8 * L + 1 + ((448 - ((8 * L % 512 : Nat) + 1)) % 512) + 64) / 8 : Int)
        = ((64 * ((L + 9 + 63) / 64) : Nat) : Int) ∧
    (L % 64 ≤ 55 →
      ((pre_pad L).newSize_byte : Int)
        = (8 * L + 1 + ((448 - ((8 * L % 512 : Nat) + 1)) % 512) + 64) / 8) ∧
    (56 ≤ L % 64 →
      ((pre_pad L).newSize_byte : Int) + 64
        = (8 * L + 1 + ((448 - ((8 * L % 512 : Nat) + 1)) % 512) + 64) / 8 ∧
      (pre_pad L).newSize_byte < L + 9) := by
  simp only [pre_pad, sub64, add64, U64, MSGBLOCK_BITS]
  norm_num
  omega

theorem C11_newSize_formula_witness :
    (pre_pad 56).newSize_byte < 56 + 9 :=
  ((C11_newSize_formula 56 (by decide)).2.2 (by decide)).2

/-- C19: for every message length `L < 2^61 - 64`, `pre_pad` returns
`newSize_byte = 64 * (L / 64 + 1)` whatever `L mod 64` is, and
`newSize_byte ≥ L + 9` holds if and only if `L mod 64 ≤ 55`. -/
theorem C19_newSize_closed_form (L : Nat) (hL : L < 2 ^ 61 - 64) :
    (pre_pad L).newSize_byte = 64 * (L / 64 + 1) ∧
      (L + 9 ≤ (pre_pad L).newSize_byte ↔ L % 64 ≤ 55) := by
  simp only [pre_pad, sub64, add64, U64, MSGBLOCK_BITS]
  norm_num
  omega

theorem C19_newSize_closed_form_witness :
    (pre_pad 120).newSize_byte = 64 * (120 / 64 + 1) ∧
      (120 + 9 ≤ (pre_pad 120).newSize_byte ↔ 120 % 64 ≤ 55) :=
  C19_newSize_closed_form 120 (by decide)

/-- C12 (code defect): for a message of length `L < 2^61 - 64`, when
`L mod 64 ≤ 55` the padded buffer has `padmsg[i] = msg[i]` for `i < L`,
`padmsg[L] = 0x80` and `padmsg[i] = 0x00` for `L < i < newSize_byte - 8`; when
`L mod 64 ≥ 56` `pad_msg` stores outside the buffer and leaves no padded
buffer. -/
theorem C12_padded_layout (msg : List Nat) (hL : msg.length < 2 ^ 61 - 64) :
    (msg.length % 64 ≤ 55 →
      ∃ padmsg, pad_msg msg msg.length (pre_pad msg.length).newSize_byte
          (pre_pad msg.length).zeroPadSize (alloc (pre_pad msg.length).newSize_byte)
          = some (padmsg, (pre_pad msg.length).newSize_byte) ∧
        padmsg.length = (pre_pad msg.length).newSize_byte ∧
        (∀ i (h : i < msg.length), padmsg[i]? = some (some msg[i])) ∧
        padmsg[msg.length]? = some (some 0x80) ∧
        (∀ i, msg.length < i → i < (pre_pad msg.length).newSize_byte - 8 →
          padmsg[i]? = some (some 0x00))) ∧
    (56 ≤ msg.length % 64 →
      pad_msg msg msg.length (pre_pad msg.length).newSize_byte
          (pre_pad msg.length).zeroPadSize (alloc (pre_pad msg.length).newSize_byte) = none) := by
  refine ⟨fun h1 => ?_, fun h1 => pad_msg_overrun msg h1 hL⟩
  refine ⟨filled (padded msg) 0, pad_msg_good msg h1 hL, ?_, padded_getElem_msg msg,
    padded_getElem_marker msg, ?_⟩
  · rw [filled_length, padded_length msg h1, (pre_pad_good _ h1 hL).1]
  · intro i hi1 hi2
    rw [(pre_pad_good _ h1 hL).1] at hi2
    exact padded_getElem_zero msg i hi1 (by omega)

theorem C12_padded_layout_witness :
    pad_msg (List.replicate 57 0x61) (List.replicate 57 0x61).length
      (pre_pad (List.replicate 57 0x61).length).newSize_byte
      (pre_pad (List.replicate 57 0x61).length).zeroPadSize
      (alloc (pre_pad (List.replicate 57 0x61).length).newSize_byte) = none :=
  (C12_padded_layout (List.replicate 57 0x61) (by decide)).2 (by decide)

/-- C13: for every message whose length `L < 2^61 - 64` has `L mod 64 = 55`,
`pre_pad` returns `zeroPadSize = 7` and `newSize_byte = L + 9`, the zero-fill
loop of `pad_msg` runs no iteration, and the padded buffer is `msg`, then
`0x80`, then the eight bytes of the big-endian encoding of `8 * L`. -/
theorem C13_adjacent_marker_and_length (msg : List Nat) (h55 : msg.length % 64 = 55)
    (hL : msg.length < 2 ^ 61 - 64) :
    (pre_pad msg.length).zeroPadSize = 7 ∧
      (pre_pad msg.length).newSize_byte = msg.length + 9 ∧
      zero_iters msg.length (pre_pad msg.length).zeroPadSize = 0 ∧
      pad_msg msg msg.length (pre_pad msg.length).newSize_byte
          (pre_pad msg.length).zeroPadSize (alloc (pre_pad msg.length).newSize_byte)
        = some ((msg ++ [0x80] ++ be64_bytes (8 * msg.length)).map some, msg.length + 9) := by
  have hp := pre_pad_good msg.length (by omega) hL
  have hz := zero_iters_good msg.length (by omega) hL
  refine ⟨by rw [hp.2]; omega, by rw [hp.1]; omega, by rw [hz]; omega, ?_⟩
  have e1 : msg.length - msg.length % 64 + 64 = msg.length + 9 := by omega
  rw [pad_msg_good msg (by omega) hL, hp.1, e1]
  have e2 : msg.length * 8 % U64 = 8 * msg.length := by
    simp only [U64]; omega
  simp only [filled, padded, h55, e2, len_bytes_eq_be64, List.replicate_zero,
    List.append_nil, Nat.sub_self]

theorem C13_adjacent_marker_and_length_witness :
    (pre_pad (List.replicate 119 0x61).length).zeroPadSize = 7 ∧
      (pre_pad (List.replicate 119 0x61).length).newSize_byte
        = (List.replicate 119 0x61).length + 9 ∧
      zero_iters (List.replicate 119 0x61).length
        (pre_pad (List.replicate 119 0x61).length).zeroPadSize = 0 ∧
      pad_msg (List.replicate 119 0x61) (List.replicate 119 0x61).length
          (pre_pad (List.replicate 119 0x61).length).newSize_byte
          (pre_pad (List.replicate 119 0x61).length).zeroPadSize
          (alloc (pre_pad (List.replicate 119 0x61).length).newSize_byte)
        = some ((List.replicate 119 0x61 ++ [0x80]
            ++ be64_bytes (8 * (List.replicate 119 0x61).length)).map some,
          (List.replicate 119 0x61).length + 9) :=
  C13_adjacent_marker_and_length (List.replicate 119 0x61) (by decide) (by decide)

theorem be_word_eq_sum (bytes : List Nat) (hb : ∀ b ∈ bytes, b < 256) (o : Nat) :
    be_word bytes o = bytes.getD o 0 * 2 ^ 24 + bytes.getD (o + 1) 0 * 2 ^ 16
      + bytes.getD (o + 2) 0 * 2 ^ 8 + bytes.getD (o + 3) 0 := by
  have hget : ∀ i, bytes.getD i 0 < 256 := by
    intro i
    by_cases h : i < bytes.length
    · rw [List.getD_eq_getElem _ _ h]; exact hb _ (List.getElem_mem _)
    · rw [List.getD_eq_default _ _ (by omega)]; decide
  unfold be_word
  have h0 := hget o
  have h1 := hget (o + 1)
  have h2 := hget (o + 2)
  have h3 := hget (o + 3)
  generalize bytes.getD o 0 = b0 at *
  generalize bytes.getD (o + 1) 0 = b1 at *
  generalize bytes.getD (o + 2) 0 = b2 at *
  generalize bytes.getD (o + 3) 0 = b3 at *
  simp only [Nat.shiftLeft_eq, U32]
  have e1 : b0 * 2 ^ 24 ||| b1 * 2 ^ 16 = b0 * 2 ^ 24 + b1 * 2 ^ 16 := by
    have := Nat.mul_add_lt_is_or (i := 24) (b := b1 * 2 ^ 16) (by omega) b0
    rw [Nat.mul_comm (2 ^ 24) b0] at this
    exact this.symm
  have e2 : (b0 * 2 ^ 24 + b1 * 2 ^ 16) ||| b2 * 2 ^ 8
      = b0 * 2 ^ 24 + b1 * 2 ^ 16 + b2 * 2 ^ 8 := by
    have := Nat.mul_add_lt_is_or (i := 16) (b := b2 * 2 ^ 8) (by omega) (b0 * 2 ^ 8 + b1)
    have e : 2 ^ 16 * (b0 * 2 ^ 8 + b1) = b0 * 2 ^ 24 + b1 * 2 ^ 16 := by omega
    rw [e] at this
    exact this.symm
  have e3 : (b0 * 2 ^ 24 + b1 * 2 ^ 16 + b2 * 2 ^ 8) ||| b3
      = b0 * 2 ^ 24 + b1 * 2 ^ 16 + b2 * 2 ^ 8 + b3 := by
    have := Nat.mul_add_lt_is_or (i := 8) (b := b3) (by omega) (b0 * 2 ^ 16 + b1 * 2 ^ 8 + b2)
    have e : 2 ^ 8 * (b0 * 2 ^ 16 + b1 * 2 ^ 8 + b2)
        = b0 * 2 ^ 24 + b1 * 2 ^ 16 + b2 * 2 ^ 8 := by omega
    rw [e] at this
    exact this.symm
  rw [e1, e2, e3]
  omega

theorem blocks_of_getD (bytes : List Nat) (n i j : Nat) (hi : i < n) (hj : j < 16) :
    ((blocks_of bytes 0 n).getD i []).getD j 0 = be_word bytes (64 * i + j * 4) := by
  have h1 : (blocks_of bytes 0 n).getD i []
      = (List.range' 0 16).map (fun j => be_word bytes (64 * i + j * 4)) := by
    simp [blocks_of, List.getD_eq_getElem?_getD, List.getElem?_range', hi]
  rw [h1]
  simp [List.getD_eq_getElem?_getD, List.getElem?_range', hj]

theorem filled_zero (bytes : List Nat) : filled bytes 0 = bytes.map some := by
  simp [filled]

/-- C14: for every completely written buffer of bytes whose length is a
multiple of 64, with `blksize = (length / 4) / 16 = length / 64`, `parse_msg`
produces exactly `blksize` rows of 16 words; every index it reads is below the
buffer length, and `parsedMsg[i][j]` is
`padmsg[64i+4j]*2^24 + padmsg[64i+4j+1]*2^16 + padmsg[64i+4j+2]*2^8 + padmsg[64i+4j+3]`. -/
theorem C14_parse_msg_words (bytes : List Nat) (hb : ∀ b ∈ bytes, b < 256)
    (h64 : bytes.length % 64 = 0) :
    bytes.length / (WORD_BITS / 8) / 16 = bytes.length / 64 ∧
    ∃ parsedMsg, parse_msg (bytes.map some) (bytes.length / (WORD_BITS / 8) / 16)
        = some parsedMsg ∧
      parsedMsg.length = bytes.length / 64 ∧
      ∀ i j, i < bytes.length / 64 → j < 16 →
        64 * i + 4 * j + 3 < bytes.length ∧
        (parsedMsg.getD i []).length = 16 ∧
        (parsedMsg.getD i []).getD j 0
          = bytes.getD (64 * i + 4 * j) 0 * 2 ^ 24 + bytes.getD (64 * i + 4 * j + 1) 0 * 2 ^ 16
            + bytes.getD (64 * i + 4 * j + 2) 0 * 2 ^ 8 + bytes.getD (64 * i + 4 * j + 3) 0 := by
  have hblk : bytes.length / (WORD_BITS / 8) / 16 = bytes.length / 64 := by
    have : WORD_BITS / 8 = 4 := by decide
    rw [this]; omega
  refine ⟨hblk, blocks_of bytes 0 (bytes.length / 64), ?_, blocks_of_length _ _ _, ?_⟩
  · rw [hblk, ← filled_zero, parse_msg_filled _ _ (by omega)]
  · intro i j hi hj
    refine ⟨by omega, ?_, ?_⟩
    · apply blocks_of_row_length bytes 0 (bytes.length / 64)
      rw [List.getD_eq_getElem _ _ (by rw [blocks_of_length]; exact hi)]
      exact List.getElem_mem _
    · rw [blocks_of_getD _ _ _ _ hi hj, be_word_eq_sum _ hb, Nat.mul_comm j 4]

theorem C14_parse_msg_words_witness :
    (List.replicate 128 0x5A).length / (WORD_BITS / 8) / 16
        = (List.replicate 128 0x5A).length / 64 ∧
    ∃ parsedMsg, parse_msg ((List.replicate 128 0x5A).map some)
        ((List.replicate 128 0x5A).length / (WORD_BITS / 8) / 16) = some parsedMsg ∧
      parsedMsg.length = (List.replicate 128 0x5A).length / 64 ∧
      ∀ i j, i < (List.replicate 128 0x5A).length / 64 → j < 16 →
        64 * i + 4 * j + 3 < (List.replicate 128 0x5A).length ∧
        (parsedMsg.getD i []).length = 16 ∧
        (parsedMsg.getD i []).getD j 0
          = (List.replicate 128 0x5A).getD (64 * i + 4 * j) 0 * 2 ^ 24
            + (List.replicate 128 0x5A).getD (64 * i + 4 * j + 1) 0 * 2 ^ 16
            + (List.replicate 128 0x5A).getD (64 * i + 4 * j + 2) 0 * 2 ^ 8
            + (List.replicate 128 0x5A).getD (64 * i + 4 * j + 3) 0 :=
  C14_parse_msg_words (List.replicate 128 0x5A)
    (by intro b hb; rw [List.eq_of_mem_replicate hb]; decide) (by simp)

theorem ROTR_eq_fips_rotr (n x : Nat) (hn1 : 1 ≤ n) (hn2 : n ≤ 31) (hx : x < 2 ^ 32) :
    ROTR n x = fips_rotr n x := by
  unfold ROTR fips_rotr
  have hs : sizeof_uint32 * 8 - n = 32 - n := by simp [sizeof_uint32]
  rw [hs, Nat.shiftRight_eq_div_pow, Nat.shiftLeft_eq, U32]
  have hpow : (2 : Nat) ^ 32 = 2 ^ n * 2 ^ (32 - n) := by
    rw [← Nat.pow_add]; congr 1; omega
  have hmod : x * 2 ^ (32 - n) % 2 ^ 32 = (x % 2 ^ n) * 2 ^ (32 - n) := by
    rw [hpow, Nat.mul_mod_mul_right]
  have hdiv : x / 2 ^ n < 2 ^ (32 - n) := by
    rw [Nat.div_lt_iff_lt_mul (by positivity), Nat.mul_comm, ← hpow]
    exact hx
  rw [hmod, Nat.lor_comm, Nat.mul_comm (x % 2 ^ n), ← Nat.mul_add_lt_is_or hdiv, Nat.add_comm]

theorem ROTR_testBit (n x : Nat) (hn1 : 1 ≤ n) (hn2 : n ≤ 31) (hx : x < 2 ^ 32) (i : Nat)
    (hi : i < 32) : (ROTR n x).testBit i = x.testBit ((i + n) % 32) := by
  unfold ROTR
  have hs : sizeof_uint32 * 8 - n = 32 - n := by simp [sizeof_uint32]
  rw [hs, U32, Nat.testBit_or, Nat.testBit_shiftRight, Nat.testBit_mod_two_pow,
    Nat.testBit_shiftLeft]
  by_cases h : i + n < 32
  · have e : (i + n) % 32 = n + i := by omega
    simp [e, hi]
    intro h2; omega
  · have e : (i + n) % 32 = i - (32 - n) := by omega
    have hf : x.testBit (n + i) = false :=
      Nat.testBit_lt_two_pow (Nat.lt_of_lt_of_le hx (Nat.pow_le_pow_right (by norm_num) (by omega)))
    simp [e, hi, hf]
    intro h2; omega

theorem ROTR_lt (n x : Nat) (hn1 : 1 ≤ n) (hn2 : n ≤ 31) (hx : x < 2 ^ 32) :
    ROTR n x < 2 ^ 32 := by
  apply Nat.lt_pow_two_of_testBit
  intro i hi
  unfold ROTR
  have hs : sizeof_uint32 * 8 - n = 32 - n := by simp [sizeof_uint32]
  rw [hs, U32, Nat.testBit_or, Nat.testBit_shiftRight, Nat.testBit_mod_two_pow]
  have hf : x.testBit (n + i) = false :=
    Nat.testBit_lt_two_pow (Nat.lt_of_lt_of_le hx (Nat.pow_le_pow_right (by norm_num) (by omega)))
  simp [hf]
  intro h; omega

theorem SIGMA_eq_fips (x : Nat) (hx : x < 2 ^ 32) :
    SIGMAU0 x = fips_Sigma0 x ∧ SIGMAU1 x = fips_Sigma1 x ∧
      SIGMAL0 x = fips_sigma0 x ∧ SIGMAL1 x = fips_sigma1 x := by
  simp only [SIGMAU0, SIGMAU1, SIGMAL0, SIGMAL1, fips_Sigma0, fips_Sigma1, fips_sigma0,
    fips_sigma1, SHR, fips_shr, Nat.shiftRight_eq_div_pow]
  rw [ROTR_eq_fips_rotr 2 x (by omega) (by omega) hx,
    ROTR_eq_fips_rotr 13 x (by omega) (by omega) hx,
    ROTR_eq_fips_rotr 22 x (by omega) (by omega) hx,
    ROTR_eq_fips_rotr 6 x (by omega) (by omega) hx,
    ROTR_eq_fips_rotr 11 x (by omega) (by omega) hx,
    ROTR_eq_fips_rotr 25 x (by omega) (by omega) hx,
    ROTR_eq_fips_rotr 7 x (by omega) (by omega) hx,
    ROTR_eq_fips_rotr 18 x (by omega) (by omega) hx,
    ROTR_eq_fips_rotr 17 x (by omega) (by omega) hx,
    ROTR_eq_fips_rotr 19 x (by omega) (by omega) hx]
  exact ⟨rfl, rfl, rfl, rfl⟩

/-- C16: for every 32-bit word `x` and every `n` with `1 ≤ n ≤ 31`, the macro
`ROTR( n, x )` on a `uint32_t` operand is the 32-bit right rotation: the result
is a 32-bit word, its bit `i` is bit `(i + n) mod 32` of `x`, and it is the
value `fips_rotr n x`; hence `SIGMAU0`, `SIGMAU1`, `SIGMAL0`, `SIGMAL1` are the
FIPS functions `Σ0`, `Σ1`, `σ0`, `σ1`. -/
theorem C16_ROTR_is_rotation (n x : Nat) (hn1 : 1 ≤ n) (hn2 : n ≤ 31) (hx : x < 2 ^ 32) :
    ROTR n x < 2 ^ 32 ∧
      (∀ i, i < 32 → (ROTR n x).testBit i = x.testBit ((i + n) % 32)) ∧
      ROTR n x = fips_rotr n x ∧
      SIGMAU0 x = fips_Sigma0 x ∧ SIGMAU1 x = fips_Sigma1 x ∧
      SIGMAL0 x = fips_sigma0 x ∧ SIGMAL1 x = fips_sigma1 x :=
  ⟨ROTR_lt n x hn1 hn2 hx, ROTR_testBit n x hn1 hn2 hx, ROTR_eq_fips_rotr n x hn1 hn2 hx,
    SIGMA_eq_fips x hx⟩

theorem C16_ROTR_is_rotation_witness :
    ROTR 7 0x80000001 < 2 ^ 32 ∧
      (∀ i, i < 32 → (ROTR 7 0x80000001).testBit i = (0x80000001).testBit ((i + 7) % 32)) ∧
      ROTR 7 0x80000001 = fips_rotr 7 0x80000001 ∧
      SIGMAU0 0x80000001 = fips_Sigma0 0x80000001 ∧
      SIGMAU1 0x80000001 = fips_Sigma1 0x80000001 ∧
      SIGMAL0 0x80000001 = fips_sigma0 0x80000001 ∧
      SIGMAL1 0x80000001 = fips_sigma1 0x80000001 :=
  C16_ROTR_is_rotation 7 0x80000001 (by decide) (by decide) (by decide)

theorem digest_pre_spec (HN : List Nat) :
    ∀ (n x : Nat) (d : List Nat), x + n ≤ d.length →
      ∃ r, digest_pre HN n x d = some r ∧ r.length = d.length ∧
        ∀ i, i < x ∨ x + n ≤ i → r[i]? = d[i]? := by
  intro n
  induction n with
  | zero => intro x d _; exact ⟨d, rfl, rfl, fun _ _ => rfl⟩
  | succ n ih =>
    intro x d h
    rw [digest_pre, store_digest_eq _ _ _ (by omega)]
    obtain ⟨r, hr, hl, hi⟩ := ih (x + 1) (d.set x (HN.getD (x / 4) 0 % 2 ^ 8))
      (by simp only [List.length_set]; omega)
    refine ⟨r, hr, by simpa using hl, ?_⟩
    intro i hcase
    rw [hi i (by omega), List.getElem?_set, if_neg (by omega)]

/-- C17: for every `N` and final state `H[N]`, and every `digest` array of at
least 32 bytes, `sha256_algo` writes exactly the bytes `digest[0..31]`, with
`digest[4x+k] = (H[N][x] >> (8*(3-k))) & 0xFF` for `x < 8`, `k < 4`, and leaves
any further byte unchanged; the loop `digest[x] = H[N][x / 4]` has no effect,
the second loop alone gives the same array. -/
theorem C17_digest_serialisation (M : List (List Nat)) (N : Nat) (HN digest : List Nat)
    (hs : sha256_state M N = some HN) (hd : 32 ≤ digest.length) :
    ∃ out, sha256_algo M N digest = some out ∧
      out.length = digest.length ∧
      (∀ x k, x < 8 → k < 4 →
        out[4 * x + k]? = some ((HN.getD x 0 >>> (8 * (3 - k))) &&& 0xFF)) ∧
      (∀ i, 32 ≤ i → out[i]? = digest[i]?) ∧
      digest_ser HN HASHWORD 0 digest = some out := by
  obtain ⟨d1, h1, hl1, hi1⟩ := digest_pre_spec HN (MSGDIGEST_BITS / HASHWORD) 0 digest
    (by simp only [MSGDIGEST_BITS, HASHWORD]; omega)
  obtain ⟨r, h2, hl2, hi2⟩ := digest_ser_spec HN HASHWORD 0 d1
    (by simp only [HASHWORD]; omega)
  obtain ⟨r', h3, hl3, hi3⟩ := digest_ser_spec HN HASHWORD 0 digest
    (by simp only [HASHWORD]; omega)
  have hconst : MSGDIGEST_BITS / HASHWORD = 32 := by decide
  have hconst2 : 4 * (0 + HASHWORD) = 32 := by decide
  have hrr : r' = r := by
    apply List.ext_getElem?
    intro i
    by_cases hlen : i < digest.length
    · rw [hi3 i hlen, hi2 i (by omega), hconst2]
      by_cases h32 : i < 32
      · rw [if_pos ⟨by omega, h32⟩, if_pos ⟨by omega, h32⟩]
      · rw [if_neg (by omega), if_neg (by omega), hi1 i (by rw [hconst]; omega)]
    · rw [List.getElem?_eq_none (by omega), List.getElem?_eq_none (by omega)]
  refine ⟨r, ?_, by omega, ?_, ?_, ?_⟩
  · unfold sha256_algo
    simp only [hs, h1, h2]
  · intro x k hx hk
    rw [hi2 _ (by omega), hconst2, if_pos ⟨by omega, by omega⟩]
    have e1 : (4 * x + k) / 4 = x := by omega
    have e2 : (4 * x + k) % 4 = k := by omega
    rw [e1, e2]
  · intro i hi
    by_cases hlen : i < digest.length
    · rw [hi2 i (by omega), hconst2, if_neg (by omega), hi1 i (by rw [hconst]; omega)]
    · rw [List.getElem?_eq_none (by omega), List.getElem?_eq_none (by omega)]
  · rw [h3, hrr]

theorem C17_digest_serialisation_witness :
    ∃ out, sha256_algo [] 0 (List.replicate 40 0xEE) = some out ∧
      out.length = (List.replicate 40 0xEE).length ∧
      (∀ x k, x < 8 → k < 4 →
        out[4 * x + k]? = some ((H0.getD x 0 >>> (8 * (3 - k))) &&& 0xFF)) ∧
      (∀ i, 32 ≤ i → out[i]? = (List.replicate 40 0xEE)[i]?) ∧
      digest_ser H0 HASHWORD 0 (List.replicate 40 0xEE) = some out :=
  C17_digest_serialisation [] 0 H0 (List.replicate 40 0xEE) (by decide) (by decide)

theorem getD_lt_of_forall (l : List Nat) (B : Nat) (hB : 0 < B) (h : ∀ w ∈ l, w < B) (i : Nat) :
    l.getD i 0 < B := by
  by_cases hi : i < l.length
  · rw [List.getD_eq_getElem _ _ hi]; exact h _ (List.getElem_mem _)
  · rw [List.getD_eq_default _ _ (by omega)]; exact hB

theorem fips_schedule_iterate_length (blk : List Nat) :
    ∀ (n : Nat) (pre : List Nat),
      (Nat.iterate (fips_schedule_step blk) n pre).length = pre.length + n := by
  intro n
  induction n with
  | zero => intro pre; rfl
  | succ n ih =>
    intro pre
    rw [Function.iterate_succ_apply, ih]
    simp only [fips_schedule_step, List.length_append, List.length_singleton]
    omega

theorem sched_loop_spec (Mi : List Nat) (hM : 16 ≤ Mi.length) (hMb : ∀ w ∈ Mi, w < 2 ^ 32) :
    ∀ (n : Nat) (pre rest : List Nat), rest.length = n → (∀ w ∈ pre, w < 2 ^ 32) →
      sched_loop Mi n pre.length (pre ++ rest)
        = some (Nat.iterate (fips_schedule_step Mi) n pre) := by
  intro n
  induction n with
  | zero =>
    intro pre rest hr _
    have : rest = [] := List.eq_nil_of_length_eq_zero hr
    subst this
    simp [sched_loop]
  | succ n ih =>
    intro pre rest hr hpre
    obtain ⟨r, rest', rfl⟩ : ∃ r rest', rest = r :: rest' := by
      cases rest with
      | nil => simp at hr
      | cons r rest' => exact ⟨r, rest', rfl⟩
    have hr' : rest'.length = n := by simpa using hr
    have hset : ∀ w, (pre ++ r :: rest').set pre.length w = (pre ++ [w]) ++ rest' := by
      intro w
      rw [List.set_append_right _ _ (Nat.le_refl _)]
      simp
    rw [sched_loop, Function.iterate_succ_apply]
    by_cases ht : pre.length < 16
    · rw [if_pos ht, List.get?_eq_getElem?, List.getElem?_eq_getElem (by omega)]
      simp only [hset]
      have := ih (pre ++ [Mi[pre.length]]) rest' hr' (by
        intro w hw
        rcases List.mem_append.1 hw with h | h
        · exact hpre w h
        · rw [List.mem_singleton.1 h]; exact hMb _ (List.getElem_mem _))
      simp only [List.length_append, List.length_singleton] at this
      rw [this]
      simp only [fips_schedule_step, if_pos ht, List.getD_eq_getElem _ _ (show pre.length < Mi.length by omega)]
    · rw [if_neg ht]
      simp only [hset]
      have hg : ∀ k, 0 < k → k ≤ pre.length →
          (pre ++ r :: rest').getD (pre.length - k) 0 = pre.getD (pre.length - k) 0 := by
        intro k hk1 hk2
        exact List.getD_append _ _ _ _ (by omega)
      rw [hg 2 (by omega) (by omega), hg 7 (by omega) (by omega), hg 15 (by omega) (by omega),
        hg 16 (by omega) (by omega)]
      have hb := getD_lt_of_forall pre (2 ^ 32) (by norm_num) hpre
      rw [(SIGMA_eq_fips _ (hb (pre.length - 2))).2.2.2,
        (SIGMA_eq_fips _ (hb (pre.length - 15))).2.2.1]
      have hval : add32 (add32 (add32 (fips_sigma1 (pre.getD (pre.length - 2) 0))
            (pre.getD (pre.length - 7) 0)) (fips_sigma0 (pre.getD (pre.length - 15) 0)))
            (pre.getD (pre.length - 16) 0)
          = (fips_sigma1 (pre.getD (pre.length - 2) 0) + pre.getD (pre.length - 7) 0
              + fips_sigma0 (pre.getD (pre.length - 15) 0) + pre.getD (pre.length - 16) 0)
                % 2 ^ 32 := by
        simp only [add32, U32]
        omega
      rw [hval]
      have := ih (pre ++ [(fips_sigma1 (pre.getD (pre.length - 2) 0) + pre.getD (pre.length - 7) 0
              + fips_sigma0 (pre.getD (pre.length - 15) 0) + pre.getD (pre.length - 16) 0)
                % 2 ^ 32]) rest' hr' (by
        intro w hw
        rcases List.mem_append.1 hw with h | h
        · exact hpre w h
        · rw [List.mem_singleton.1 h]; exact Nat.mod_lt _ (by norm_num))
      simp only [List.length_append, List.length_singleton] at this
      rw [this]
      simp only [fips_schedule_step, if_neg ht]

theorem sched_loop_eq_fips (Mi W : List Nat) (hM : 16 ≤ Mi.length)
    (hMb : ∀ w ∈ Mi, w < 2 ^ 32) (hW : W.length = MSGSCHED) :
    sched_loop Mi MSGSCHED 0 W = some (fips_schedule Mi) := by
  have := sched_loop_spec Mi hM hMb MSGSCHED [] W hW (by simp)
  simpa [fips_schedule, MSGSCHED] using this

theorem round_step_eq_fips (W : List Nat) (v : Vars) (t : Nat) (ha : v.a < 2 ^ 32)
    (he : v.e < 2 ^ 32) : round_step W v t = fips_round W v t := by
  unfold round_step fips_round
  rw [(SIGMA_eq_fips _ ha).1, (SIGMA_eq_fips _ he).2.1]
  have hT1 : add32 (add32 (add32 (add32 v.h (fips_Sigma1 v.e)) (CH v.e v.f v.g)) (K.getD t 0))
      (W.getD t 0)
      = (v.h + fips_Sigma1 v.e + fips_Ch v.e v.f v.g + K.getD t 0 + W.getD t 0) % 2 ^ 32 := by
    have : CH v.e v.f v.g = fips_Ch v.e v.f v.g := rfl
    rw [this]
    simp only [add32, U32]
    omega
  have hT2 : MAJ v.a v.b v.c = fips_Maj v.a v.b v.c := rfl
  simp only [hT1, hT2]
  simp only [add32, U32]

theorem rounds_eq_fips (W : List Nat) :
    ∀ (l : List Nat) (v : Vars), v.a < 2 ^ 32 → v.e < 2 ^ 32 →
      l.foldl (round_step W) v = l.foldl (fips_round W) v := by
  intro l
  induction l with
  | nil => intro v _ _; rfl
  | cons t l ih =>
    intro v ha he
    rw [List.foldl_cons, List.foldl_cons, round_step_eq_fips W v t ha he]
    apply ih
    · exact Nat.mod_lt _ (by norm_num)
    · exact Nat.mod_lt _ (by norm_num)

theorem next_hash_eq_fips (Mi Hp : List Nat) (ha : Hp.getD 0 0 < 2 ^ 32)
    (he : Hp.getD 4 0 < 2 ^ 32) :
    next_hash (rounds (fips_schedule Mi) (init_vars Hp)) Hp = fips_compress Hp Mi := by
  unfold next_hash rounds fips_compress
  rw [rounds_eq_fips _ _ _ ha he]
  simp only [add32, U32, MSGSCHED, init_vars]

theorem fips_compress_bounds (H blk : List Nat) :
    (fips_compress H blk).getD 0 0 < 2 ^ 32 ∧ (fips_compress H blk).getD 4 0 < 2 ^ 32 := by
  unfold fips_compress
  exact ⟨Nat.mod_lt _ (by norm_num), Nat.mod_lt _ (by norm_num)⟩

theorem block_loop_spec (M : List (List Nat)) (hM : ∀ Mi ∈ M, 16 ≤ Mi.length)
    (hMb : ∀ Mi ∈ M, ∀ w ∈ Mi, w < 2 ^ 32) :
    ∀ (n i : Nat) (W : List Nat) (H : List (List Nat)), 1 ≤ i → W.length = MSGSCHED →
      i + n = H.length → i - 1 + n ≤ M.length →
      (H.getD (i - 1) []).getD 0 0 < 2 ^ 32 → (H.getD (i - 1) []).getD 4 0 < 2 ^ 32 →
      ∃ H1, block_loop M n i W H = some H1 ∧
        H1.getD (i - 1 + n) [] = ((M.drop (i - 1)).take n).foldl fips_compress
          (H.getD (i - 1) []) := by
  intro n
  induction n with
  | zero =>
    intro i W H _ _ _ _ _ _
    exact ⟨H, rfl, by simp⟩
  | succ n ih =>
    intro i W H h1 hW hH hlen ha he
    have hlt : i - 1 < M.length := by omega
    have hmem : M[i - 1] ∈ M := List.getElem_mem _
    rw [block_loop, List.get?_eq_getElem?, List.getElem?_eq_getElem hlt]
    simp only
    rw [sched_loop_eq_fips _ W (hM _ hmem) (hMb _ hmem) hW]
    simp only
    rw [next_hash_eq_fips _ _ ha he]
    have hWl : (fips_schedule M[i - 1]).length = MSGSCHED := by
      unfold fips_schedule
      rw [fips_schedule_iterate_length]
      rfl
    have hget : (H.set i (fips_compress (H.getD (i - 1) []) M[i - 1])).getD (i + 1 - 1) []
        = fips_compress (H.getD (i - 1) []) M[i - 1] := by
      rw [Nat.add_sub_cancel, List.getD_eq_getElem _ _ (by simp only [List.length_set]; omega)]
      simp
    obtain ⟨H1, hH1, hres⟩ := ih (i + 1) (fips_schedule M[i - 1])
      (H.set i (fips_compress (H.getD (i - 1) []) M[i - 1])) (by omega) hWl
      (by simp only [List.length_set]; omega) (by omega)
      (by rw [hget]; exact (fips_compress_bounds _ _).1)
      (by rw [hget]; exact (fips_compress_bounds _ _).2)
    refine ⟨H1, hH1, ?_⟩
    rw [hget] at hres
    have e1 : i + 1 - 1 + n = i - 1 + (n + 1) := by omega
    have e2 : i + 1 - 1 = i - 1 + 1 := by omega
    rw [e1, e2] at hres
    rw [hres, List.drop_eq_getElem_cons hlt, List.take_succ_cons, List.foldl_cons]

theorem sha256_state_eq_fips (M : List (List Nat)) (N : Nat) (hN : N ≤ M.length)
    (hM : ∀ Mi ∈ M, 16 ≤ Mi.length) (hMb : ∀ Mi ∈ M, ∀ w ∈ Mi, w < 2 ^ 32) :
    sha256_state M N = some (fips_hash (M.take N)) := by
  have h0 : (init_H N).getD (1 - 1) [] = H0 := rfl
  obtain ⟨H1, hH1, hres⟩ := block_loop_spec M hM hMb N 1 (List.replicate MSGSCHED 0) (init_H N)
    (by omega) (by simp) (by simp [init_H]; omega) (by omega) (by rw [h0]; decide)
    (by rw [h0]; decide)
  unfold sha256_state
  rw [hH1]
  simp only [Nat.sub_self, Nat.zero_add, List.drop_zero] at hres
  simp only [hres]
  rfl

/-- C15: for every sequence `M` of `N ≥ 0` blocks of sixteen 32-bit words, the
final state `H[N]` that `sha256_algo` computes with its array of all the
states `H[0..N]` is the left fold over the blocks, from `H0`, of the FIPS 180-4
compression step `fips_compress` (schedule, 64 rounds, element-wise addition
modulo `2^32`), the value a single accumulator gives; the digest written is the
serialisation of that state. -/
theorem C15_state_is_fold_of_compression (M : List (List Nat)) (N : Nat) (digest : List Nat)
    (hN : M.length = N) (hrow : ∀ Mi ∈ M, Mi.length = 16)
    (hword : ∀ Mi ∈ M, ∀ w ∈ Mi, w < 2 ^ 32) (hd : digest.length = 32) :
    sha256_state M N = some (M.foldl fips_compress H0) ∧
      sha256_algo M N digest = some (digest_bytes (M.foldl fips_compress H0)) := by
  have h := sha256_state_eq_fips M N (by omega) (fun Mi h => by rw [hrow Mi h]) hword
  rw [← hN, List.take_length] at h
  rw [sha256_algo_eq M N digest hd, ← hN, h]
  exact ⟨rfl, rfl⟩

theorem C15_state_is_fold_of_compression_witness :
    sha256_state [List.replicate 16 0x61626364, List.replicate 16 0] 2
        = some ([List.replicate 16 0x61626364, List.replicate 16 0].foldl fips_compress H0) ∧
      sha256_algo [List.replicate 16 0x61626364, List.replicate 16 0] 2 (List.replicate 32 0)
        = some (digest_bytes
            ([List.replicate 16 0x61626364, List.replicate 16 0].foldl fips_compress H0)) :=
  C15_state_is_fold_of_compression [List.replicate 16 0x61626364, List.replicate 16 0] 2
    (List.replicate 32 0) (by decide) (by decide) (by decide) (by decide)

theorem fips_zero_bits_spec (l : Nat) :
    (l + 1 + fips_zero_bits l) % 512 = 448 ∧ fips_zero_bits l < 512 := by
  unfold fips_zero_bits
  omega

theorem fips_sha256_abc :
    fips_sha256 [0x61, 0x62, 0x63] =
      [0xba, 0x78, 0x16, 0xbf, 0x8f, 0x01, 0xcf, 0xea, 0x41, 0x41, 0x40, 0xde, 0x5d, 0xae, 0x22,
       0x23, 0xb0, 0x03, 0x61, 0xa3, 0x96, 0x17, 0x7a, 0x9c, 0xb4, 0x10, 0xff, 0x61, 0xf2, 0x00,
       0x15, 0xad] := by
  decide

theorem fips_sha256_two_block :
    fips_sha256 nist_two_block_msg =
      [0x24, 0x8d, 0x6a, 0x61, 0xd2, 0x06, 0x38, 0xb8, 0xe5, 0xc0, 0x26, 0x93, 0x0c, 0x3e, 0x60,
       0x39, 0xa3, 0x3c, 0xe4, 0x59, 0x64, 0xff, 0x21, 0x67, 0xf6, 0xec, 0xed, 0xd4, 0x19, 0xdb,
       0x06, 0xc1] := by
  decide

theorem fips_hash_length : ∀ (blocks : List (List Nat)) (H : List Nat), H.length = 8 →
    (blocks.foldl fips_compress H).length = 8 := by
  intro blocks
  induction blocks with
  | nil => intro H h; exact h
  | cons b bs ih => intro H _; exact ih _ rfl

theorem digest_bytes_eq_serialize (HN : List Nat) (h : HN.length = 8) :
    digest_bytes HN = fips_serialize HN := by
  match HN, h with
  | [h0, h1, h2, h3, h4, h5, h6, h7], _ =>
    simp [digest_bytes, fips_serialize, List.range, List.range.loop, and_255,
      Nat.shiftRight_eq_div_pow]

theorem padded_eq_fips_pad (msg : List Nat) (h1 : msg.length % 64 ≤ 55)
    (h2 : msg.length < 2 ^ 61 - 64) : padded msg = fips_pad msg := by
  unfold padded fips_pad
  have e1 : (fips_zero_bits (8 * msg.length) - 7) / 8 = 55 - msg.length % 64 := by
    unfold fips_zero_bits; omega
  have e2 : msg.length * 8 % U64 = 8 * msg.length := by
    simp only [U64]; omega
  rw [e1, e2, len_bytes_eq_be64]

theorem fips_pad_bytes (msg : List Nat) (hb : ∀ b ∈ msg, b < 256) :
    ∀ b ∈ fips_pad msg, b < 256 := by
  intro b hmem
  simp only [fips_pad, be64_bytes, List.mem_append, List.mem_singleton, List.mem_replicate,
    List.mem_cons, List.mem_nil_iff, or_false] at hmem
  rcases hmem with ((h | h) | h) | h
  · exact hb b h
  · omega
  · omega
  · rcases h with h | h | h | h | h | h | h | h <;> omega

theorem blocks_of_eq_fips_blocks (bytes : List Nat) (hb : ∀ b ∈ bytes, b < 256) :
    blocks_of bytes 0 (bytes.length / 64) = fips_blocks bytes := by
  unfold blocks_of fips_blocks
  rw [List.range_eq_range', List.range_eq_range']
  apply List.map_congr_left
  intro i _
  apply List.map_congr_left
  intro j _
  rw [be_word_eq_sum _ hb, Nat.mul_comm j 4]
  rfl

theorem be_word_lt (bytes : List Nat) (o : Nat) : be_word bytes o < 2 ^ 32 := by
  unfold be_word
  exact Nat.mod_lt _ (by norm_num [U32])

theorem blocks_of_words_lt (bytes : List Nat) (i n : Nat) :
    ∀ Mi ∈ blocks_of bytes i n, ∀ w ∈ Mi, w < 2 ^ 32 := by
  intro Mi hMi w hw
  simp only [blocks_of, List.mem_map] at hMi
  obtain ⟨k, _, rfl⟩ := hMi
  simp only [List.mem_map] at hw
  obtain ⟨j, _, rfl⟩ := hw
  exact be_word_lt _ _

/-- On the lengths whose padding `pre_pad` plans correctly, `sha256` returns
`true` with the FIPS 180-4 digest. -/
theorem sha256_eq_fips (msg digest : List Nat) (hb : ∀ b ∈ msg, b < 256)
    (h1 : msg.length % 64 ≤ 55) (h2 : msg.length < 2 ^ 61 - 64) (hd : digest.length = 32) :
    sha256 msg msg.length digest = some (true, fips_sha256 msg) := by
  obtain ⟨HN, hHN, h⟩ := sha256_good msg digest h1 h2 hd
  have hfold := sha256_state_eq_fips (blocks_of (padded msg) 0 ((padded msg).length / 64))
    ((padded msg).length / 64) (by rw [blocks_of_length])
    (fun Mi hMi => by rw [blocks_of_row_length _ _ _ Mi hMi]) (blocks_of_words_lt _ _ _)
  rw [hfold] at hHN
  have hHN' : HN = fips_hash (fips_blocks (fips_pad msg)) := by
    have := Option.some.inj hHN
    rw [← this, List.take_of_length_le (by rw [blocks_of_length]),
      padded_eq_fips_pad msg h1 h2, blocks_of_eq_fips_blocks _ (fips_pad_bytes msg hb)]
  have hl : (fips_hash (fips_blocks (fips_pad msg))).length = 8 :=
    fips_hash_length _ H0 rfl
  rw [h, hHN', digest_bytes_eq_serialize _ hl]
  rfl

theorem fips_sha256_empty :
    fips_sha256 [] =
      [0xe3, 0xb0, 0xc4, 0x42, 0x98, 0xfc, 0x1c, 0x14, 0x9a, 0xfb, 0xf4, 0xc8, 0x99, 0x6f, 0xb9,
       0x24, 0x27, 0xae, 0x41, 0xe4, 0x64, 0x9b, 0x93, 0x4c, 0xa4, 0x95, 0x99, 0x1b, 0x78, 0x52,
       0xb8, 0x55] := by
  decide

/-- C18: for every message of bytes whose length `L` satisfies `L mod 64 ≤ 55`
and `L < 2^61 - 64`, and every 32-byte `digest` array, `sha256` returns `true`
and leaves the FIPS 180-4 SHA-256 digest of the message in `digest`, and
`pad_msg` fills exactly the allocated buffer: its last store is at index
`newSize_byte - 1`. -/
theorem C18_sha256_correct_on_planned_lengths (msg digest : List Nat)
    (hb : ∀ b ∈ msg, b < 256) (h1 : msg.length % 64 ≤ 55) (h2 : msg.length < 2 ^ 61 - 64)
    (hd : digest.length = 32) :
    sha256 msg msg.length digest = some (true, fips_sha256 msg) ∧
      ∃ padmsg, pad_msg msg msg.length (pre_pad msg.length).newSize_byte
          (pre_pad msg.length).zeroPadSize (alloc (pre_pad msg.length).newSize_byte)
          = some (padmsg, (pre_pad msg.length).newSize_byte) ∧
        padmsg.length = (pre_pad msg.length).newSize_byte := by
  refine ⟨sha256_eq_fips msg digest hb h1 h2 hd, filled (padded msg) 0,
    pad_msg_good msg h1 h2, ?_⟩
  rw [filled_length, padded_length msg h1, (pre_pad_good _ h1 h2).1]

theorem C18_sha256_correct_on_planned_lengths_witness :
    sha256 (List.replicate 1000 0x61) (List.replicate 1000 0x61).length (List.replicate 32 0)
        = some (true, fips_sha256 (List.replicate 1000 0x61)) ∧
      ∃ padmsg, pad_msg (List.replicate 1000 0x61) (List.replicate 1000 0x61).length
          (pre_pad (List.replicate 1000 0x61).length).newSize_byte
          (pre_pad (List.replicate 1000 0x61).length).zeroPadSize
          (alloc (pre_pad (List.replicate 1000 0x61).length).newSize_byte)
          = some (padmsg, (pre_pad (List.replicate 1000 0x61).length).newSize_byte) ∧
        padmsg.length = (pre_pad (List.replicate 1000 0x61).length).newSize_byte :=
  C18_sha256_correct_on_planned_lengths (List.replicate 1000 0x61) (List.replicate 32 0)
    (by intro b hb; rw [List.eq_of_mem_replicate hb]; decide) (by simp) (by simp) (by simp)

theorem is_prime_iff (n : Nat) : is_prime n = true ↔ Nat.Prime n := by
  rw [Nat.prime_def_lt']
  simp only [is_prime, Bool.and_eq_true, decide_eq_true_eq, List.all_eq_true, List.mem_range,
    Bool.or_eq_true, bne_iff_ne, ne_eq]
  constructor
  · rintro ⟨h2, h⟩
    refine ⟨h2, fun m hm1 hm2 hdvd => ?_⟩
    rcases h m hm2 with h' | h'
    · omega
    · exact h' (Nat.mod_eq_zero_of_dvd hdvd)
  · rintro ⟨h2, h⟩
    refine ⟨h2, fun m hm => ?_⟩
    by_cases hm2 : m < 2
    · exact Or.inl hm2
    · exact Or.inr (fun h0 => h m (by omega) hm (Nat.dvd_of_mod_eq_zero h0))

theorem count_prime_eq (n : Nat) : Nat.count Nat.Prime n = (List.range n).countP is_prime := by
  induction n with
  | zero => rfl
  | succ n ih =>
    rw [Nat.count_succ, ih, List.range_succ, List.countP_append]
    congr 1
    by_cases h : Nat.Prime n
    · simp [h, (is_prime_iff n).2 h]
    · have : is_prime n = false := by
        cases hp : is_prime n with
        | false => rfl
        | true => exact absurd ((is_prime_iff n).1 hp) h
      simp [h, this]

theorem first_primes_length : first_primes.length = 64 := by decide

theorem first_primes_count :
    ∀ i, i < 64 → is_prime (first_primes.getD i 0) = true ∧
      (List.range (first_primes.getD i 0)).countP is_prime = i := by
  decide

theorem first_primes_nth (i : Nat) (hi : i < 64) :
    Nat.nth Nat.Prime i = first_primes.getD i 0 := by
  obtain ⟨hp, hc⟩ := first_primes_count i hi
  have h := Nat.nth_count ((is_prime_iff _).1 hp)
  rw [count_prime_eq, hc] at h
  exact h

theorem H0_roots :
    ∀ i, i < 8 →
      H0.getD i 0 < 2 ^ 32 ∧
      (iroot 2 (first_primes.getD i 0) * 2 ^ 32 + H0.getD i 0) ^ 2
        ≤ first_primes.getD i 0 * 2 ^ 64 ∧
      first_primes.getD i 0 * 2 ^ 64
        < (iroot 2 (first_primes.getD i 0) * 2 ^ 32 + H0.getD i 0 + 1) ^ 2 := by
  decide

theorem K_roots :
    ∀ t, t < 64 →
      K.getD t 0 < 2 ^ 32 ∧
      (iroot 3 (first_primes.getD t 0) * 2 ^ 32 + K.getD t 0) ^ 3
        ≤ first_primes.getD t 0 * 2 ^ 96 ∧
      first_primes.getD t 0 * 2 ^ 96
        < (iroot 3 (first_primes.getD t 0) * 2 ^ 32 + K.getD t 0 + 1) ^ 3 := by
  decide

/-- C20: the tables are the FIPS 180-4 constants.  With `p` the `(i+1)`-th
prime, `H0[i]` is `floor(sqrt(p * 2^64)) mod 2^32` for every `i < 8`, and
`K[t]` is `c mod 2^32` for the integer `c` with `c^3 ≤ p * 2^96 < (c+1)^3`, the
integer part of the cube root of `p * 2^96`, for every `t < 64`. -/
theorem C20_tables_are_fips_constants :
    (∀ i, i < 8 → H0.getD i 0 = Nat.sqrt (Nat.nth Nat.Prime i * 2 ^ 64) % 2 ^ 32) ∧
    (∀ t, t < 64 → ∃ c, c ^ 3 ≤ Nat.nth Nat.Prime t * 2 ^ 96 ∧
      Nat.nth Nat.Prime t * 2 ^ 96 < (c + 1) ^ 3 ∧ K.getD t 0 = c % 2 ^ 32) := by
  constructor
  · intro i hi
    obtain ⟨hlt, h1, h2⟩ := H0_roots i hi
    rw [first_primes_nth i (by omega)]
    have hs := Nat.eq_sqrt'.2 ⟨h1, h2⟩
    rw [← hs]
    omega
  · intro t ht
    obtain ⟨hlt, h1, h2⟩ := K_roots t ht
    rw [first_primes_nth t ht]
    exact ⟨_, h1, h2, by omega⟩

theorem C20_tables_are_fips_constants_witness :
    H0.getD 0 0 = Nat.sqrt (Nat.nth Nat.Prime 0 * 2 ^ 64) % 2 ^ 32 ∧
      ∃ c, c ^ 3 ≤ Nat.nth Nat.Prime 63 * 2 ^ 96 ∧
        Nat.nth Nat.Prime 63 * 2 ^ 96 < (c + 1) ^ 3 ∧ K.getD 63 0 = c % 2 ^ 32 :=
  ⟨C20_tables_are_fips_constants.1 0 (by decide),
    C20_tables_are_fips_constants.2 63 (by decide)⟩

end SHA256
